import Mathlib

/-!
# HID H10304 codec and the HID37 pulse decoder

A shallow embedding of

* `applications/lfrfid/helpers/protocols/protocol_hid_h10304.cpp`
  (`write_raw_bit`, `write_manchester_bit`, `ProtocolHID10304::encode`, `decode`,
  `can_be_decoded`), and
* `applications/lfrfid/helpers/decoder_hid37.cpp`
  (`DecoderHID37::read`, `process_front`, `store_data`, `reset_state`).

Machine integers are natural numbers; a truncation `% 2 ^ w` is written wherever a C
operation can leave the range of its type.  The 16-byte wire frame is handled, as in the
source, through its four native 32-bit words (`HID10304CardData[4]`): `encode` copies the
words out with `memcpy`, `decode` and `can_be_decoded` read them back through a
`reinterpret_cast`, so the word view is the same on both sides.
-/

namespace HID

/-! ## Words of the frame -/

/-- The array `HID10304CardData card_data[HID10304Count]`: four 32-bit words. -/
structure CardData where
  w0 : Nat
  w1 : Nat
  w2 : Nat
  w3 : Nat
deriving DecidableEq

/-- The constant `constexpr uint8_t HID10304Count = 4`. -/
def HID10304Count : Nat := 4

/-- The constant `constexpr uint8_t HID10304BitSize = sizeof(HID10304CardData) * 8`. -/
def HID10304BitSize : Nat := 4 * 8

/-- Checked read of `card_data[i]`: `none` outside the four words. -/
def CardData.word (cd : CardData) (i : Nat) : Option Nat :=
  match i with
  | 0 => some cd.w0
  | 1 => some cd.w1
  | 2 => some cd.w2
  | 3 => some cd.w3
  | _ => none

/-- Store `v` in `card_data[i]`; the caller has checked `i` with `CardData.word`. -/
def CardData.setWord (cd : CardData) (i : Nat) (v : Nat) : CardData :=
  match i with
  | 0 => { cd with w0 := v }
  | 1 => { cd with w1 := v }
  | 2 => { cd with w2 := v }
  | 3 => { cd with w3 := v }
  | _ => cd

/-- Every word fits its 32-bit cell. -/
def CardData.WF (cd : CardData) : Prop :=
  cd.w0 < 2 ^ 32 ∧ cd.w1 < 2 ^ 32 ∧ cd.w2 < 2 ^ 32 ∧ cd.w3 < 2 ^ 32

instance (cd : CardData) : Decidable cd.WF := by
  unfold CardData.WF; infer_instance

/-- Raw bit `p` of a frame, most significant bit first: bit `31 - p % 32` of word
`p / 32`; positions outside the frame read as `false`. -/
def rawBit (cd : CardData) (p : Nat) : Bool :=
  match cd.word (p / 32) with
  | some w => w.testBit (31 - p % 32)
  | none => false

/-! ## `write_raw_bit` and `write_manchester_bit` -/

/-- The function `write_raw_bit` with the array access checked: `none` when
`position / 32` is not one of the four words (the C store would land outside
`card_data`).  The mask
`~(1UL << k)` is the 32-bit complement `0xFFFFFFFF ^ (1 << k)`. -/
def write_raw_bit_checked (bit : Bool) (position : Nat) (card_data : CardData) :
    Option CardData :=
  match card_data.word (position / HID10304BitSize) with
  | none => none
  | some w =>
    some (card_data.setWord (position / HID10304BitSize)
      (if bit then
        w ||| (1 <<< (HID10304BitSize - (position % HID10304BitSize) - 1))
      else
        w &&& (0xFFFFFFFF ^^^ (1 <<< (HID10304BitSize - (position % HID10304BitSize) - 1)))))

/-- The function `write_raw_bit` as it acts on the four words that `encode` later copies
out: a store whose word index is outside the array does not touch any of the four words. -/
def write_raw_bit (bit : Bool) (position : Nat) (card_data : CardData) : CardData :=
  (write_raw_bit_checked bit position card_data).getD card_data

/-- The function `write_manchester_bit`: the bit, then its complement; `position + 1` is
converted back to `uint8_t`. -/
def write_manchester_bit (bit : Bool) (position : Nat) (card_data : CardData) : CardData :=
  write_raw_bit (!bit) ((position + 1) % 256) (write_raw_bit bit (position + 0) card_data)

/-! ## `ProtocolHID10304` -/

namespace ProtocolHID10304

/-- The method `get_encoded_data_size`: `sizeof(HID10304CardData) * HID10304Count`. -/
def get_encoded_data_size : Nat := 4 * HID10304Count

/-- The method `get_decoded_data_size`. -/
def get_decoded_data_size : Nat := 5

/-- The value `fc_cn` built from `decoded_data[0..3]` (a `uint64_t`). -/
def fc_cn (decoded_data : List Nat) : Nat :=
  ((decoded_data.getD 0 0 <<< 24)
    ||| (decoded_data.getD 1 0 <<< 16)
    ||| (decoded_data.getD 2 0 <<< 8)
    ||| decoded_data.getD 3 0) % 2 ^ 64

/-- The counting loop `for (; i < i + n; i++) if (((v >> i) & 1) == 1) sum++` with `n`
rounds left, on the `uint8_t` counter `sum`. -/
def parity_sum (v : Nat) : Nat → Nat → Nat → Nat
  | _, 0, sum => sum
  | i, n + 1, sum =>
    parity_sum v (i + 1) n (if (v >>> i) &&& 1 = 1 then (sum + 1) % 256 else sum)

/-- The loop variable `even_parity_sum` after the loop `i = 17 .. 34`. -/
def even_parity_sum (v : Nat) : Nat := parity_sum v 17 (35 - 17) 0

/-- The loop variable `odd_parity_sum` after the loop `i = 0 .. 17`. -/
def odd_parity_sum (v : Nat) : Nat := parity_sum v 0 (18 - 0) 1

/-- The eight `write_raw_bit` calls of the `0x1D` preamble. -/
def write_preamble (cd : CardData) : CardData :=
  write_raw_bit true (10 + 7)
    (write_raw_bit false (10 + 6)
      (write_raw_bit true (10 + 5)
        (write_raw_bit true (10 + 4)
          (write_raw_bit true (10 + 3)
            (write_raw_bit false (10 + 2)
              (write_raw_bit false (10 + 1)
                (write_raw_bit false (10 + 0) cd)))))))

/-- The seven `write_manchester_bit` calls of the company / OEM code. -/
def write_oem (cd : CardData) : CardData :=
  write_manchester_bit true (10 + 20)
    (write_manchester_bit false (10 + 18)
      (write_manchester_bit false (10 + 16)
        (write_manchester_bit false (10 + 14)
          (write_manchester_bit false (10 + 12)
            (write_manchester_bit false (10 + 10)
              (write_manchester_bit false (10 + 8) cd))))))

/-- The eleven `write_manchester_bit` calls of the card format / length. -/
def write_format (cd : CardData) : CardData :=
  write_manchester_bit false (10 + 42)
    (write_manchester_bit false (10 + 40)
      (write_manchester_bit true (10 + 38)
        (write_manchester_bit false (10 + 36)
          (write_manchester_bit false (10 + 34)
            (write_manchester_bit false (10 + 32)
              (write_manchester_bit false (10 + 30)
                (write_manchester_bit false (10 + 28)
                  (write_manchester_bit false (10 + 26)
                    (write_manchester_bit false (10 + 24)
                      (write_manchester_bit false (10 + 22) cd))))))))))

/-- The first `n` rounds of the data loop
`for (i = 0; i < 35; i++) write_manchester_bit((fc_cn >> (34 - i) & 1), 10 + 46 + (i * 2), ..)`. -/
def write_data (v : Nat) (n : Nat) (cd : CardData) : CardData :=
  (List.range n).foldl
    (fun acc i => write_manchester_bit (((v >>> (34 - i)) &&& 1) != 0) (10 + 46 + (i * 2)) acc)
    cd

/-- The local array `card_data` of `encode` at the final `memcpy`. -/
def encode_card_data (decoded_data : List Nat) : CardData :=
  let v := fc_cn decoded_data
  let cd0 : CardData := ⟨0, 0, 0, 0⟩
  let cd1 := write_format (write_oem (write_preamble cd0))
  let cd2 := write_manchester_bit (even_parity_sum v % 2 != 0) (10 + 44) cd1
  let cd3 := write_data v 35 cd2
  write_manchester_bit (odd_parity_sum v % 2 != 0) (10 + 118) cd3

/-- The logical bit that the data loop stores in the pair holding raw position `q`. -/
def data_bit (v q : Nat) : Bool := ((v >>> (34 - (q - 56) / 2)) &&& 1) != 0

/-- The frame after the constant stores of `encode` (preamble, OEM code, format). -/
def fixed_card_data : CardData := ⟨0x00075556, 0x55559400, 0, 0⟩

/-- The method `ProtocolHID10304::encode`.  The list `decoded_data` holds the input
bytes; the result is the frame copied to `encoded_data`; `none` is a failed
`furi_check`. -/
def encode (decoded_data : List Nat) (decoded_data_size encoded_data_size : Nat) :
    Option CardData :=
  if decoded_data_size < get_decoded_data_size then none
  else if encoded_data_size < get_encoded_data_size then none
  else some (encode_card_data decoded_data)

/-- One round of a decoding loop: the `switch` on a two-bit pair, on the `uint64_t`
accumulator `result`. -/
def decode_step (result : Nat) (pair : Nat) : Nat :=
  match pair with
  | 0b01 => ((result <<< 1) ||| 0) % 2 ^ 64
  | 0b10 => ((result <<< 1) ||| 1) % 2 ^ 64
  | _ => result

/-- The loop `for (i = n - 1; i >= 0; i--) switch ((w >> (2 * i)) & 0b11) ...`. -/
def decode_word (w : Nat) : Nat → Nat → Nat
  | 0, result => result
  | n + 1, result => decode_word w n (decode_step result ((w >>> (2 * n)) &&& 0b11))

/-- The accumulator `result` of `decode` after its three loops. -/
def decode_result (cd : CardData) : Nat :=
  decode_word cd.w3 16 (decode_word cd.w2 16 (decode_word cd.w1 10 0))

/-- The array `data[5]` of `decode`: five `(uint8_t)` casts of shifted `result`. -/
def decode_data (result : Nat) : List Nat :=
  [(result >>> 33) % 256, (result >>> 25) % 256, (result >>> 17) % 256,
   (result >>> 9) % 256, (result >>> 1) % 256]

/-- The method `ProtocolHID10304::decode`: the five bytes copied to `decoded_data` (the
`printf` of the same bytes is not modelled); `none` is a failed `furi_check`. -/
def decode (encoded_data : CardData) (encoded_data_size decoded_data_size : Nat) :
    Option (List Nat) :=
  if decoded_data_size < get_decoded_data_size then none
  else if encoded_data_size < get_encoded_data_size then none
  else some (decode_data (decode_result encoded_data))

/-- The method `ProtocolHID10304::can_be_decoded`; `none` is a failed `furi_check`. -/
def can_be_decoded (encoded_data : CardData) (encoded_data_size : Nat) : Option Bool :=
  if encoded_data_size < get_encoded_data_size then none
  else if ((encoded_data.w0 >>> 7) &&& 0xFF) ≠ 0x1D then some false
  else some (decide ((encoded_data.w0 &&& 0x3FFF) = 0x1556))

end ProtocolHID10304

/-! ## `DecoderHID37` -/

/-- The constant `clocks_in_us`. -/
def clocks_in_us : Nat := 64

/-- The constant `jitter_time_us`. -/
def jitter_time_us : Nat := 20

/-- The constant `min_time_us`. -/
def min_time_us : Nat := 64

/-- The constant `max_time_us`. -/
def max_time_us : Nat := 80

/-- The constant `min_clocks`. -/
def min_clocks : Nat := (min_time_us - jitter_time_us) * clocks_in_us

/-- The constant `mid_clocks`. -/
def mid_clocks : Nat := ((max_time_us - min_time_us) / 2 + min_time_us) * clocks_in_us

/-- The constant `max_clocks`. -/
def max_clocks : Nat := (max_time_us + jitter_time_us) * clocks_in_us

/-- Modelled from the spec: the width in bits of the member `pulse_count`, declared in
`decoder_hid37.h`, which is not among the sources.  The spec's data model gives
`pulse_count : unsigned`; it is taken as a `uint8_t`, so `pulse_count++` wraps at 256. -/
def pulse_count_bits : Nat := 8

/-- Modelled from the spec: the data members of class `DecoderHID37`, declared in
`decoder_hid37.h`, which is not among the sources.  The spec's data model gives the
FrameBuffer (four 32-bit words), the RunState (`last_pulse_length : bool`,
`pulse_count : unsigned`, see `pulse_count_bits`), the ready flag and the pending
half-pulse width (unsigned 32). -/
structure DecoderHID37 where
  stored_data : CardData
  last_pulse_length : Bool
  pulse_count : Nat
  ready : Bool
  pulse_clocks : Nat
deriving DecidableEq

namespace DecoderHID37

/-- The method `DecoderHID37::reset_state`. -/
def reset_state (d : DecoderHID37) : DecoderHID37 :=
  { d with last_pulse_length := false, pulse_count := 0, ready := false, pulse_clocks := 0 }

/-- The four assignments of `store_data` to `stored_data[0..3]`, on `uint32_t` cells:
each word is shifted left by one and takes bit 31 of the next word, the last word takes
`data`. -/
def shift_in (s : CardData) (data : Bool) : CardData :=
  let s0 := ((s.w0 <<< 1) ||| ((s.w1 >>> 31) &&& 1)) % 2 ^ 32
  let s1 := ((s.w1 <<< 1) ||| ((s.w2 >>> 31) &&& 1)) % 2 ^ 32
  let s2 := ((s.w2 <<< 1) ||| ((s.w3 >>> 31) &&& 1)) % 2 ^ 32
  let s3 := ((s.w3 <<< 1) ||| data.toNat) % 2 ^ 32
  ⟨s0, s1, s2, s3⟩

/-- The method `DecoderHID37::store_data`: the four shifts, then the call of
`hid.can_be_decoded` on the 16 bytes of `stored_data` (with that size its `furi_check`
holds, so the call returns a flag). -/
def store_data (d : DecoderHID37) (data : Bool) : DecoderHID37 :=
  let stored := shift_in d.stored_data data
  if ProtocolHID10304.can_be_decoded stored (4 * 4) = some true then
    { d with stored_data := stored, ready := true }
  else
    { d with stored_data := stored }

/-- The method `DecoderHID37::process_front`. -/
def process_front (d : DecoderHID37) (rising_edge : Bool) (edge_clocks : Nat) :
    DecoderHID37 :=
  if d.ready then d
  else if rising_edge then { d with pulse_clocks := edge_clocks }
  else
    let d1 := { d with pulse_clocks := (d.pulse_clocks + edge_clocks) % 2 ^ 32 }
    if d1.pulse_clocks > min_clocks ∧ d1.pulse_clocks < max_clocks then
      let pulse_length : Bool := decide (d1.pulse_clocks ≥ mid_clocks)
      if pulse_length = d1.last_pulse_length then
        let d2 := { d1 with pulse_count := (d1.pulse_count + 1) % 2 ^ pulse_count_bits }
        if pulse_length = true ∧ d2.pulse_count > 4 then
          store_data { d2 with pulse_count := 0 } true
        else if pulse_length = false ∧ d2.pulse_count > 5 then
          store_data { d2 with pulse_count := 0 } false
        else d2
      else
        let d3 :=
          if d1.last_pulse_length = true ∧ d1.pulse_count > 2 then store_data d1 true
          else if d1.last_pulse_length = false ∧ d1.pulse_count > 3 then store_data d1 false
          else d1
        { d3 with pulse_count := 0, last_pulse_length := pulse_length }
    else d1

/-- The method `DecoderHID37::read` on the caller's buffer `data` of declared size
`data_size`: the returned flag, the buffer and the decoder afterwards; `none` is a failed
`furi_assert` or a failed `furi_check` inside `hid.decode`. -/
def read (d : DecoderHID37) (data : List Nat) (data_size : Nat) :
    Option (Bool × List Nat × DecoderHID37) :=
  if data_size < 4 then none
  else if d.ready then
    match ProtocolHID10304.decode d.stored_data (4 * 4) data_size with
    | none => none
    | some bytes => some (true, bytes ++ data.drop bytes.length, { d with ready := false })
  else some (false, data, d)

end DecoderHID37

/-! ## Edge sequences for a frame -/

/-- The nominal width of a short pulse, `min_time_us` microseconds, in clocks. -/
def nominal_short_clocks : Nat := min_time_us * clocks_in_us

/-- The nominal width of a long pulse, `max_time_us` microseconds, in clocks. -/
def nominal_long_clocks : Nat := max_time_us * clocks_in_us

/-- One pulse of the given width as a rising-edge call followed by a falling-edge call of
`process_front`, the width split between the two durations. -/
def pulse_edges (width : Nat) : List (Bool × Nat) :=
  [(true, width / 2), (false, width - width / 2)]

/-- One frame bit as a run of nominal-width pulses: five long pulses for a 1 and six
short pulses for a 0, the run lengths named in the comments of `process_front`. -/
def bit_edges (b : Bool) : List (Bool × Nat) :=
  if b then (List.replicate 5 (pulse_edges nominal_long_clocks)).flatten
  else (List.replicate 6 (pulse_edges nominal_short_clocks)).flatten

/-- The synthetic edge sequence of a frame, raw bit 0 first. -/
def frame_edges (cd : CardData) : List (Bool × Nat) :=
  ((List.range 128).map (fun p => bit_edges (rawBit cd p))).flatten

/-- The synthetic edge sequence of a list of raw bits. -/
def edges_of_bits (bits : List Bool) : List (Bool × Nat) :=
  (bits.map bit_edges).flatten

/-- Feeding a list of edge events to `process_front`, one call per event. -/
def feed (d : DecoderHID37) (events : List (Bool × Nat)) : DecoderHID37 :=
  events.foldl (fun acc e => DecoderHID37.process_front acc e.1 e.2) d

/-- The FrameBuffer after the bits of a list have been shifted in, first bit first. -/
def shift_bits (s : CardData) (bits : List Bool) : CardData :=
  bits.foldl DecoderHID37.shift_in s

/-! ## Reference notions of the specification -/

/-- The value `V` of a payload: bytes 0..3 read as a big-endian 32-bit number. -/
def payload_value (payload : List Nat) : Nat :=
  payload.getD 0 0 * 2 ^ 24 + payload.getD 1 0 * 2 ^ 16 + payload.getD 2 0 * 2 ^ 8
    + payload.getD 3 0

/-- Parity of the bit positions `lo..hi` of `v`: the number of set bits, mod 2. -/
def bit_parity (v lo hi : Nat) : Nat :=
  ((List.range (hi + 1 - lo)).filter (fun k => v.testBit (lo + k))).length % 2

/-- The number of set bits of `v` among the positions `i .. i + n - 1`. -/
def count_bits (v : Nat) : Nat → Nat → Nat
  | _, 0 => 0
  | i, n + 1 => (if v.testBit i then 1 else 0) + count_bits v (i + 1) n

/-- The number whose bit `i` is `g i` for `i < n`. -/
def bits_value (g : Nat → Bool) : Nat → Nat
  | 0 => 0
  | n + 1 => bits_value g n + (g n).toNat * 2 ^ n

/-- Manchester coding of a bit string: every bit, then its complement. -/
def manchester : List Bool → List Bool
  | [] => []
  | b :: bs => b :: (!b) :: manchester bs

/-- The raw bits `start .. start + len - 1` of a frame, in order. -/
def raw_bits (cd : CardData) (start len : Nat) : List Bool :=
  (List.range len).map (fun k => rawBit cd (start + k))

/-- The reference validator: raw bits [10..18) are the preamble 00011101 and raw bits
[18..32) are the Manchester coding of the OEM bits 0000001. -/
def can_be_decoded_ref (cd : CardData) : Bool :=
  decide (raw_bits cd 10 8 = [false, false, false, true, true, true, false, true]
    ∧ raw_bits cd 18 14 = manchester [false, false, false, false, false, false, true])

/-- The `n` two-bit pairs in bits `2 * n - 1 .. 0` of a word, most significant first. -/
def pairs_of (w n : Nat) : List Nat :=
  (List.range n).reverse.map (fun i => w / 4 ^ i % 4)

/-- The logical bit of a pair: `01` is 0, `10` is 1, `00` and `11` carry nothing. -/
def pair_bit : Nat → Option Nat
  | 1 => some 0
  | 2 => some 1
  | _ => none

/-- The reference accumulator: the bits of the valid pairs of word 1 (10 pairs), word 2
and word 3 (16 pairs each), appended most significant first. -/
def decode_ref_result (cd : CardData) : Nat :=
  ((pairs_of cd.w1 10 ++ pairs_of cd.w2 16 ++ pairs_of cd.w3 16).filterMap pair_bit).foldl
    (fun r b => 2 * r + b) 0

/-- The byte split `r >> 33, r >> 25, r >> 17, r >> 9, r >> 1`, each truncated to 8 bits. -/
def ref_bytes (r : Nat) : List Nat :=
  [r / 2 ^ 33 % 256, r / 2 ^ 25 % 256, r / 2 ^ 17 % 256, r / 2 ^ 9 % 256, r / 2 ^ 1 % 256]

/-- Appending the logical bit of one pair to an accumulator; an invalid pair appends
nothing. -/
def ref_append (r pair : Nat) : Nat :=
  match pair_bit pair with
  | some b => 2 * r + b
  | none => r

/-- The reference decoder: the byte split of the reference accumulator. -/
def decode_ref (cd : CardData) : List Nat :=
  ref_bytes (decode_ref_result cd)

/-- The FrameBuffer read as one 128-bit number, word 0 most significant. -/
def frame_number (cd : CardData) : Nat :=
  cd.w0 * 2 ^ 96 + cd.w1 * 2 ^ 64 + cd.w2 * 2 ^ 32 + cd.w3

/-- The outcome of `k` successive calls of `read` with the same buffer size: the flags
returned, the buffer and the decoder afterwards; `none` when one of the calls fails. -/
def reads (d : DecoderHID37) (data : List Nat) (data_size : Nat) :
    Nat → Option (List Bool × List Nat × DecoderHID37)
  | 0 => some ([], data, d)
  | k + 1 =>
    match d.read data data_size with
    | none => none
    | some (flag, data1, d1) =>
      match reads d1 data1 data_size k with
      | none => none
      | some (flags, data2, d2) => some (flag :: flags, data2, d2)

/-- One call on the public interface of the decoder. -/
inductive Call where
  | process_front (rising_edge : Bool) (edge_clocks : Nat)
  | read (data : List Nat) (data_size : Nat)
  | reset_state
deriving DecidableEq

/-- A call that respects the size contract of `read` (`data_size >= 4`). -/
def Call.ok : Call → Prop
  | Call.read _ data_size => 4 ≤ data_size
  | _ => True

/-- The decoder after one call; `none` when the call fails. -/
def call (d : DecoderHID37) : Call → Option DecoderHID37
  | Call.process_front rising_edge edge_clocks => some (d.process_front rising_edge edge_clocks)
  | Call.read data data_size =>
    match d.read data data_size with
    | none => none
    | some (_, _, d1) => some d1
  | Call.reset_state => some d.reset_state

/-- The decoder after a sequence of calls; `none` when one of them fails. -/
def calls (d : DecoderHID37) : List Call → Option DecoderHID37
  | [] => some d
  | c :: cs =>
    match call d c with
    | none => none
    | some d1 => calls d1 cs

/-- The pulse class of a total width: long from `mid_clocks` on, short below. -/
def pulse_class (width : Nat) : Bool := decide (mid_clocks ≤ width)

/-- The counter after `pulse_count++`: one more, wrapping to 0 at the top of its type. -/
def incremented (count : Nat) : Nat := (count + 1) % 2 ^ pulse_count_bits

/-- The bit-recovery rule in the words of the specification, for a pulse of class `c`
arriving in the run state (`last`, `count`): the bit committed, if any, and the run state
afterwards.  The new count of a continued run is the incremented counter. -/
def bit_recovery_ref (c last : Bool) (count : Nat) : Option Bool × Bool × Nat :=
  if c = last then
    if c = true ∧ incremented count > 4 then (some true, last, 0)
    else if c = false ∧ incremented count > 5 then (some false, last, 0)
    else (none, last, incremented count)
  else
    if last = true ∧ count > 2 then (some true, c, 0)
    else if last = false ∧ count > 3 then (some false, c, 0)
    else (none, c, 0)

/-- The FrameBuffer after an optional commit. -/
def commit (s : CardData) : Option Bool → CardData
  | none => s
  | some b => DecoderHID37.shift_in s b

/-- The two `write_raw_bit` calls of one `write_manchester_bit` call, as (bit, position)
pairs in call order. -/
def manchester_writes (bit : Bool) (position : Nat) : List (Bool × Nat) :=
  [(bit, position + 0), (!bit, (position + 1) % 256)]

/-- All `write_raw_bit` calls of `encode`, as (bit, position) pairs in call order: the
preamble, the OEM code, the format, the even-parity bit, the data loop, the odd-parity
bit. -/
def encode_writes (decoded_data : List Nat) : List (Bool × Nat) :=
  let v := ProtocolHID10304.fc_cn decoded_data
  [(false, 10 + 0), (false, 10 + 1), (false, 10 + 2), (true, 10 + 3), (true, 10 + 4),
    (true, 10 + 5), (false, 10 + 6), (true, 10 + 7)]
  ++ (manchester_writes false (10 + 8) ++ manchester_writes false (10 + 10)
    ++ manchester_writes false (10 + 12) ++ manchester_writes false (10 + 14)
    ++ manchester_writes false (10 + 16) ++ manchester_writes false (10 + 18)
    ++ manchester_writes true (10 + 20))
  ++ (manchester_writes false (10 + 22) ++ manchester_writes false (10 + 24)
    ++ manchester_writes false (10 + 26) ++ manchester_writes false (10 + 28)
    ++ manchester_writes false (10 + 30) ++ manchester_writes false (10 + 32)
    ++ manchester_writes false (10 + 34) ++ manchester_writes false (10 + 36)
    ++ manchester_writes true (10 + 38) ++ manchester_writes false (10 + 40)
    ++ manchester_writes false (10 + 42))
  ++ manchester_writes (ProtocolHID10304.even_parity_sum v % 2 != 0) (10 + 44)
  ++ ((List.range 35).map
      (fun i => manchester_writes (((v >>> (34 - i)) &&& 1) != 0) (10 + 46 + (i * 2)))).flatten
  ++ manchester_writes (ProtocolHID10304.odd_parity_sum v % 2 != 0) (10 + 118)

/-- A sequence of `write_raw_bit` calls on the four frame words. -/
def write_all (writes : List (Bool × Nat)) (cd : CardData) : CardData :=
  writes.foldl (fun acc w => write_raw_bit w.1 w.2 acc) cd

/-- A sequence of `write_raw_bit` calls with every array access checked: `none` as soon as
one call indexes outside the four words. -/
def write_all_checked : List (Bool × Nat) → CardData → Option CardData
  | [], cd => some cd
  | w :: ws, cd =>
    match write_raw_bit_checked w.1 w.2 cd with
    | none => none
    | some cd1 => write_all_checked ws cd1
/-! # Theorems -/

set_option maxRecDepth 100000

open ProtocolHID10304

/-! ## Single-bit stores -/

theorem testBit_set (w k j : Nat) :
    (w ||| (1 <<< k)).testBit j = (decide (k = j) || w.testBit j) := by
  rw [Nat.testBit_or, Nat.one_shiftLeft, Nat.testBit_two_pow, Bool.or_comm]

theorem testBit_clear (w k j : Nat) (hj : j < 32) :
    (w &&& (0xFFFFFFFF ^^^ (1 <<< k))).testBit j = (!decide (k = j) && w.testBit j) := by
  have h : (0xFFFFFFFF : Nat) = 2 ^ 32 - 1 := by norm_num
  rw [Nat.testBit_and, Nat.testBit_xor, Nat.one_shiftLeft, Nat.testBit_two_pow, h,
    Nat.testBit_two_pow_sub_one]
  simp [hj, Bool.and_comm]

theorem testBit_store (b : Bool) (w k j : Nat) (hj : j < 32) :
    (if b then w ||| (1 <<< k) else w &&& (0xFFFFFFFF ^^^ (1 <<< k))).testBit j
      = if j = k then b else w.testBit j := by
  cases b
  · rw [if_neg (by simp), testBit_clear w k j hj]
    by_cases h : j = k
    · simp [h]
    · have h2 : ¬ k = j := fun e => h e.symm
      simp [h, h2]
  · rw [if_pos rfl, testBit_set]
    by_cases h : j = k
    · simp [h]
    · have h2 : ¬ k = j := fun e => h e.symm
      simp [h, h2]

theorem CardData.word_none (c : CardData) (i : Nat) (h : 4 ≤ i) : c.word i = none := by
  obtain ⟨n, hn⟩ : ∃ n, i = n + 4 := ⟨i - 4, by omega⟩
  rw [hn]; rfl

theorem rawBit_outside (cd : CardData) (q : Nat) (h : 128 ≤ q) : rawBit cd q = false := by
  simp only [rawBit, CardData.word_none cd (q / 32) (by omega)]

theorem rawBit_write_raw_bit (b : Bool) (p q : Nat) (cd : CardData) (hp : p < 128) :
    rawBit (write_raw_bit b p cd) q = if q = p then b else rawBit cd q := by
  by_cases hq128 : 128 ≤ q
  · rw [rawBit_outside _ q hq128, rawBit_outside _ q hq128, if_neg (by omega)]
  have h1 : p / 32 = 0 ∨ p / 32 = 1 ∨ p / 32 = 2 ∨ p / 32 = 3 := by omega
  have hk : 32 - p % 32 - 1 = 31 - p % 32 := by omega
  have hq : 31 - q % 32 < 32 := by omega
  have h2 : q / 32 = 0 ∨ q / 32 = 1 ∨ q / 32 = 2 ∨ q / 32 = 3 := by omega
  have key : ∀ w, q / 32 = p / 32 →
      (if b then w ||| (1 <<< (31 - p % 32))
        else w &&& (0xFFFFFFFF ^^^ (1 <<< (31 - p % 32)))).testBit (31 - q % 32)
      = if q = p then b else w.testBit (31 - q % 32) := by
    intro w hw
    rw [testBit_store b w _ _ hq]
    by_cases hqp : q = p
    · simp [hqp]
    · have : ¬ (31 - q % 32 = 31 - p % 32) := by omega
      simp [hqp, this]
  have hne : ¬ q / 32 = p / 32 → ¬ q = p := fun h e => h (by rw [e])
  rcases h1 with h | h | h | h <;> rcases h2 with g | g | g | g
  all_goals
    first
    | (have hw : q / 32 = p / 32 := by omega
       simp only [rawBit, write_raw_bit, write_raw_bit_checked, CardData.word, CardData.setWord,
          HID10304BitSize, h, g, hk, Option.getD_some]
       exact key _ hw)
    | (have hw : ¬ q / 32 = p / 32 := by omega
       have hqp := hne hw
       simp only [rawBit, write_raw_bit, write_raw_bit_checked, CardData.word, CardData.setWord,
          HID10304BitSize, h, g, hk, Option.getD_some, hqp, if_false])

theorem write_raw_bit_outside (b : Bool) (p : Nat) (cd : CardData) (hp : 128 ≤ p) :
    write_raw_bit b p cd = cd := by
  simp only [write_raw_bit, write_raw_bit_checked, HID10304BitSize,
    CardData.word_none cd (p / (4 * 8)) (by omega), Option.getD_none]

theorem rawBit_write_manchester_bit (b : Bool) (p q : Nat) (cd : CardData) (hp : p + 1 < 128) :
    rawBit (write_manchester_bit b p cd) q
      = if q = p then b else if q = p + 1 then !b else rawBit cd q := by
  have h256 : (p + 1) % 256 = p + 1 := by omega
  rw [write_manchester_bit, h256, rawBit_write_raw_bit _ _ _ _ hp,
    rawBit_write_raw_bit _ _ _ _ (by omega)]
  by_cases h1 : q = p
  · have : ¬ q = p + 1 := by omega
    simp [h1]
  · simp [h1]


/-! ## The data loop and the bits of an encoded frame -/

theorem write_manchester_bit_outside (b : Bool) (p : Nat) (cd : CardData)
    (hp : 128 ≤ p) (hp2 : p + 1 < 256) : write_manchester_bit b p cd = cd := by
  have h256 : (p + 1) % 256 = p + 1 := by omega
  rw [write_manchester_bit, h256, write_raw_bit_outside _ _ _ (by omega),
    write_raw_bit_outside _ _ _ (by omega)]

theorem write_data_succ (v n : Nat) (cd : CardData) :
    write_data v (n + 1) cd
      = write_manchester_bit (((v >>> (34 - n)) &&& 1) != 0) (10 + 46 + (n * 2))
          (write_data v n cd) := by
  simp only [write_data, List.range_succ, List.foldl_append, List.foldl_cons, List.foldl_nil]

theorem rawBit_write_data (v n q : Nat) (cd : CardData) (hn : n ≤ 35) :
    rawBit (write_data v n cd) q
      = if 56 ≤ q ∧ q < 56 + 2 * n then
          (if (q - 56) % 2 = 0 then data_bit v q else !data_bit v q)
        else rawBit cd q := by
  induction n with
  | zero =>
    have : ¬ (56 ≤ q ∧ q < 56 + 2 * 0) := by omega
    simp only [this, if_false, write_data, List.range_zero, List.foldl_nil]
  | succ n ih =>
    rw [write_data_succ, rawBit_write_manchester_bit _ _ _ _ (by omega), ih (by omega)]
    by_cases h1 : q = 10 + 46 + n * 2
    · have hc : 56 ≤ q ∧ q < 56 + 2 * (n + 1) := by omega
      have hm : (q - 56) % 2 = 0 := by omega
      have hd : (q - 56) / 2 = n := by omega
      rw [if_pos h1, if_pos hc, if_pos hm, data_bit, hd]
    · rw [if_neg h1]
      by_cases h2 : q = 10 + 46 + n * 2 + 1
      · have hc : 56 ≤ q ∧ q < 56 + 2 * (n + 1) := by omega
        have hm : ¬ (q - 56) % 2 = 0 := by omega
        have hd : (q - 56) / 2 = n := by omega
        rw [if_pos h2, if_pos hc, if_neg hm, data_bit, hd]
      · rw [if_neg h2]
        by_cases h3 : 56 ≤ q ∧ q < 56 + 2 * n
        · have hc : 56 ≤ q ∧ q < 56 + 2 * (n + 1) := by omega
          rw [if_pos h3, if_pos hc]
        · have hc : ¬ (56 ≤ q ∧ q < 56 + 2 * (n + 1)) := by omega
          rw [if_neg h3, if_neg hc]

theorem fixed_card_data_eq :
    write_format (write_oem (write_preamble ⟨0, 0, 0, 0⟩)) = fixed_card_data := by
  decide

theorem encode_card_data_eq (payload : List Nat) :
    encode_card_data payload
      = write_data (fc_cn payload) 35
          (write_manchester_bit (even_parity_sum (fc_cn payload) % 2 != 0) 54
            fixed_card_data) := by
  simp only [encode_card_data, fixed_card_data_eq]
  rw [write_manchester_bit_outside _ (10 + 118) _ (by omega) (by omega)]

theorem rawBit_encode (payload : List Nat) (q : Nat) :
    rawBit (encode_card_data payload) q
      = if q < 54 then rawBit fixed_card_data q
        else if q = 54 then (even_parity_sum (fc_cn payload) % 2 != 0)
        else if q = 55 then !(even_parity_sum (fc_cn payload) % 2 != 0)
        else if q < 126 then
          (if (q - 56) % 2 = 0 then data_bit (fc_cn payload) q
            else !data_bit (fc_cn payload) q)
        else false := by
  rw [encode_card_data_eq, rawBit_write_data _ _ _ _ (le_refl 35),
    rawBit_write_manchester_bit _ _ _ _ (by omega)]
  by_cases h0 : q < 54
  · have h1 : ¬ (56 ≤ q ∧ q < 56 + 2 * 35) := by omega
    have h2 : ¬ q = 54 := by omega
    have h3 : ¬ q = 54 + 1 := by omega
    rw [if_neg h1, if_neg h2, if_neg h3, if_pos h0]
  by_cases h2 : q = 54
  · subst h2; simp
  by_cases h3 : q = 55
  · subst h3; simp
  have h3b : ¬ q = 54 + 1 := by omega
  by_cases h4 : q < 126
  · have h1 : 56 ≤ q ∧ q < 56 + 2 * 35 := by omega
    rw [if_pos h1]
    simp only [h0, h2, h3, h4, if_true, if_false]
  · have h1 : ¬ (56 ≤ q ∧ q < 56 + 2 * 35) := by omega
    rw [if_neg h1, if_neg h2, if_neg h3b]
    simp only [h0, h2, h3, h4, if_false]
    by_cases h5 : 128 ≤ q
    · exact rawBit_outside _ _ h5
    · have : q = 126 ∨ q = 127 := by omega
      rcases this with h | h <;> subst h <;> decide


/-! ## Words stay within 32 bits; words from raw bits -/

theorem store_lt (b : Bool) (w k : Nat) (hw : w < 2 ^ 32) (hk : k < 32) :
    (if b then w ||| (1 <<< k) else w &&& (0xFFFFFFFF ^^^ (1 <<< k))) < 2 ^ 32 := by
  cases b
  · rw [if_neg (by simp)]
    exact lt_of_le_of_lt Nat.and_le_left hw
  · rw [if_pos rfl, Nat.one_shiftLeft]
    exact Nat.or_lt_two_pow hw (Nat.pow_lt_pow_right (by norm_num) hk)

theorem write_raw_bit_WF (b : Bool) (p : Nat) (cd : CardData) (h : cd.WF) :
    (write_raw_bit b p cd).WF := by
  by_cases hp : 128 ≤ p
  · rw [write_raw_bit_outside b p cd hp]; exact h
  have h1 : p / 32 = 0 ∨ p / 32 = 1 ∨ p / 32 = 2 ∨ p / 32 = 3 := by omega
  have hk : 32 - p % 32 - 1 < 32 := by omega
  obtain ⟨h0, h1', h2, h3⟩ := h
  rcases h1 with g | g | g | g <;>
    simp only [write_raw_bit, write_raw_bit_checked, CardData.word, CardData.setWord,
      HID10304BitSize, g, Option.getD_some, CardData.WF]
  · exact ⟨store_lt b _ _ h0 hk, h1', h2, h3⟩
  · exact ⟨h0, store_lt b _ _ h1' hk, h2, h3⟩
  · exact ⟨h0, h1', store_lt b _ _ h2 hk, h3⟩
  · exact ⟨h0, h1', h2, store_lt b _ _ h3 hk⟩

theorem write_manchester_bit_WF (b : Bool) (p : Nat) (cd : CardData) (h : cd.WF) :
    (write_manchester_bit b p cd).WF :=
  write_raw_bit_WF _ _ _ (write_raw_bit_WF _ _ _ h)

theorem write_data_WF (v n : Nat) (cd : CardData) (h : cd.WF) : (write_data v n cd).WF := by
  induction n with
  | zero => simpa only [write_data, List.range_zero, List.foldl_nil] using h
  | succ n ih => rw [write_data_succ]; exact write_manchester_bit_WF _ _ _ ih

theorem encode_card_data_WF (payload : List Nat) : (encode_card_data payload).WF := by
  rw [encode_card_data_eq]
  exact write_data_WF _ _ _ (write_manchester_bit_WF _ _ _ (by decide))

theorem testBit_w0 (cd : CardData) (j : Nat) (hj : j < 32) :
    cd.w0.testBit j = rawBit cd (31 - j) := by
  have h1 : (31 - j) / 32 = 0 := by omega
  have h2 : 31 - (31 - j) % 32 = j := by omega
  simp only [rawBit, h1, h2, CardData.word]

theorem testBit_w1 (cd : CardData) (j : Nat) (hj : j < 32) :
    cd.w1.testBit j = rawBit cd (63 - j) := by
  have h1 : (63 - j) / 32 = 1 := by omega
  have h2 : 31 - (63 - j) % 32 = j := by omega
  simp only [rawBit, h1, h2, CardData.word]

theorem testBit_w2 (cd : CardData) (j : Nat) (hj : j < 32) :
    cd.w2.testBit j = rawBit cd (95 - j) := by
  have h1 : (95 - j) / 32 = 2 := by omega
  have h2 : 31 - (95 - j) % 32 = j := by omega
  simp only [rawBit, h1, h2, CardData.word]

theorem testBit_w3 (cd : CardData) (j : Nat) (hj : j < 32) :
    cd.w3.testBit j = rawBit cd (127 - j) := by
  have h1 : (127 - j) / 32 = 3 := by omega
  have h2 : 31 - (127 - j) % 32 = j := by omega
  simp only [rawBit, h1, h2, CardData.word]

theorem testBit_high (w j : Nat) (hw : w < 2 ^ 32) (hj : 32 ≤ j) : w.testBit j = false :=
  Nat.testBit_lt_two_pow (lt_of_lt_of_le hw (Nat.pow_le_pow_right (by norm_num) hj))

theorem encode_w0 (payload : List Nat) : (encode_card_data payload).w0 = 0x00075556 := by
  have hwf := encode_card_data_WF payload
  apply Nat.eq_of_testBit_eq
  intro i
  by_cases hi : i < 32
  · rw [testBit_w0 _ i hi, rawBit_encode, if_pos (by omega), ← testBit_w0 _ i hi]
    rfl
  · rw [testBit_high _ i hwf.1 (by omega), testBit_high _ i (by norm_num) (by omega)]

theorem encode_w1_high (payload : List Nat) :
    (encode_card_data payload).w1 >>> 10 = 0x155565 := by
  have hwf := encode_card_data_WF payload
  apply Nat.eq_of_testBit_eq
  intro i
  rw [Nat.testBit_shiftRight]
  by_cases hi : 10 + i < 32
  · have h63 : 63 - (10 + i) < 54 := by omega
    rw [testBit_w1 _ _ hi, rawBit_encode, if_pos h63, ← testBit_w1 _ _ hi,
      ← Nat.testBit_shiftRight]
    rfl
  · rw [testBit_high _ _ hwf.2.1 (by omega)]
    exact (Nat.testBit_lt_two_pow (lt_of_lt_of_le (by norm_num : 0x155565 < 2 ^ 22)
      (Nat.pow_le_pow_right (by norm_num) (by omega)))).symm

/-! ## The payload value, the parity counters, the data bits -/

theorem or_eq_add_of_lt (a b k : Nat) (hb : b < 2 ^ k) : (a * 2 ^ k) ||| b = a * 2 ^ k + b := by
  rw [Nat.mul_comm, ← Nat.mul_add_lt_is_or hb]

theorem fc_cn_eq (b0 b1 b2 b3 : Nat) (rest : List Nat)
    (h0 : b0 < 256) (h1 : b1 < 256) (h2 : b2 < 256) (h3 : b3 < 256) :
    fc_cn (b0 :: b1 :: b2 :: b3 :: rest) = payload_value (b0 :: b1 :: b2 :: b3 :: rest) := by
  have e : ((b0 <<< 24) ||| (b1 <<< 16) ||| (b2 <<< 8) ||| b3)
      = b0 * 2 ^ 24 + b1 * 2 ^ 16 + b2 * 2 ^ 8 + b3 := by
    rw [Nat.or_assoc, Nat.or_assoc]
    simp only [Nat.shiftLeft_eq]
    rw [or_eq_add_of_lt b2 b3 8 (by omega), or_eq_add_of_lt b1 _ 16 (by omega),
      or_eq_add_of_lt b0 _ 24 (by omega)]
    omega
  simp only [fc_cn, payload_value, List.getD_cons_zero, List.getD_cons_succ]
  rw [e]
  omega

theorem payload_value_lt (b0 b1 b2 b3 : Nat) (rest : List Nat)
    (h0 : b0 < 256) (h1 : b1 < 256) (h2 : b2 < 256) (h3 : b3 < 256) :
    payload_value (b0 :: b1 :: b2 :: b3 :: rest) < 2 ^ 32 := by
  simp only [payload_value, List.getD_cons_zero, List.getD_cons_succ]
  omega

theorem and_one_eq_one_iff (v i : Nat) : ((v >>> i) &&& 1 = 1) ↔ v.testBit i = true := by
  rw [Nat.testBit_to_div_mod, Nat.and_one_is_mod, Nat.shiftRight_eq_div_pow]
  simp

theorem and_one_bne_zero (v i : Nat) : (((v >>> i) &&& 1) != 0) = v.testBit i := by
  rw [Nat.testBit_to_div_mod, Nat.and_one_is_mod, Nat.shiftRight_eq_div_pow]
  rcases Nat.mod_two_eq_zero_or_one (v / 2 ^ i) with h | h <;> simp [h]

theorem data_bit_eq (v q : Nat) : data_bit v q = v.testBit (34 - (q - 56) / 2) :=
  and_one_bne_zero _ _

theorem count_bits_le (v i n : Nat) : count_bits v i n ≤ n := by
  induction n generalizing i with
  | zero => simp [count_bits]
  | succ n ih =>
    have := ih (i + 1)
    simp only [count_bits]
    split_ifs <;> omega

theorem parity_sum_eq (v i n sum : Nat) (h : sum + n < 256) :
    parity_sum v i n sum = sum + count_bits v i n := by
  induction n generalizing i sum with
  | zero => simp [parity_sum, count_bits]
  | succ n ih =>
    simp only [parity_sum, count_bits, and_one_eq_one_iff]
    by_cases hb : v.testBit i = true
    · rw [if_pos hb, if_pos hb, Nat.mod_eq_of_lt (by omega), ih _ _ (by omega)]
      omega
    · rw [if_neg hb, if_neg hb, ih _ _ (by omega)]
      omega

theorem filter_length_eq_count_bits (v lo n : Nat) :
    ((List.range n).filter (fun k => v.testBit (lo + k))).length = count_bits v lo n := by
  induction n generalizing lo with
  | zero => simp [count_bits]
  | succ n ih =>
    rw [List.range_succ_eq_map, List.filter_cons, count_bits]
    have e : List.filter (fun k => v.testBit (lo + k)) (List.map Nat.succ (List.range n))
        = List.map Nat.succ (List.filter (fun k => v.testBit (lo + 1 + k)) (List.range n)) := by
      rw [List.filter_map]
      congr 1
      apply List.filter_congr
      intro x _
      simp only [Function.comp, Nat.succ_eq_add_one]
      congr 1
      omega
    by_cases hb : v.testBit lo = true
    · simp only [Nat.add_zero, hb, if_true, List.length_cons, e, List.length_map, ih]
      omega
    · simp only [Nat.add_zero, hb, if_false, e, List.length_map, ih, Bool.false_eq_true]
      omega

theorem even_parity_eq (v : Nat) : even_parity_sum v % 2 = bit_parity v 17 34 := by
  rw [even_parity_sum, parity_sum_eq _ _ _ _ (by norm_num), bit_parity,
    filter_length_eq_count_bits]
  simp

theorem odd_parity_eq (v : Nat) : odd_parity_sum v % 2 = (1 + bit_parity v 0 17) % 2 := by
  rw [odd_parity_sum, parity_sum_eq _ _ _ _ (by norm_num), bit_parity,
    filter_length_eq_count_bits]
  simp

/-! ## The layout of an encoded frame -/

theorem encode_eq (payload : List Nat) :
    encode payload 5 16 = some (encode_card_data payload) := by
  simp [encode, get_decoded_data_size, get_encoded_data_size, HID10304Count]

theorem raw_bits_encode_fixed (payload : List Nat) (start len : Nat) (h : start + len ≤ 54) :
    raw_bits (encode_card_data payload) start len = raw_bits fixed_card_data start len := by
  apply List.map_congr_left
  intro k hk
  rw [List.mem_range] at hk
  rw [rawBit_encode, if_pos (by omega)]

/-- C5: for every payload the frame produced by `encode` has raw bits [0..10) zero, raw bits
[10..18) equal to 00011101, raw bits [18..32) the Manchester coding of the OEM bits
0000001 and the 22 raw bits from position 32 the Manchester coding of the format bits
00000000100; word 0 is 0x00075556 and word 1 shifted right by 10 is 0x155565. -/
theorem encode_fixed_fields (payload : List Nat) :
    ∃ f, encode payload 5 16 = some f
      ∧ raw_bits f 0 10 = List.replicate 10 false
      ∧ raw_bits f 10 8 = [false, false, false, true, true, true, false, true]
      ∧ raw_bits f 18 14 = manchester [false, false, false, false, false, false, true]
      ∧ raw_bits f 32 22
          = manchester [false, false, false, false, false, false, false, false, true,
              false, false]
      ∧ f.w0 = 0x00075556
      ∧ f.w1 >>> 10 = 0x155565 := by
  refine ⟨encode_card_data payload, encode_eq payload, ?_, ?_, ?_, ?_,
    encode_w0 payload, encode_w1_high payload⟩
  · rw [raw_bits_encode_fixed _ _ _ (by norm_num)]; decide
  · rw [raw_bits_encode_fixed _ _ _ (by norm_num)]; decide
  · rw [raw_bits_encode_fixed _ _ _ (by norm_num)]; decide
  · rw [raw_bits_encode_fixed _ _ _ (by norm_num)]; decide

/-- C6: with `V` the big-endian value of payload bytes 0..3, for every `i` in 0..34 raw bit
`56 + 2 * i` of the encoded frame is bit `34 - i` of `V` and raw bit `57 + 2 * i` is its
complement; the frame does not depend on the fifth payload byte. -/
theorem encode_data_field (b0 b1 b2 b3 b4 : Nat)
    (h0 : b0 < 256) (h1 : b1 < 256) (h2 : b2 < 256) (h3 : b3 < 256) :
    ∃ f, encode [b0, b1, b2, b3, b4] 5 16 = some f
      ∧ (∀ i, i < 35 →
          rawBit f (56 + 2 * i) = (payload_value [b0, b1, b2, b3, b4]).testBit (34 - i)
          ∧ rawBit f (57 + 2 * i) = !(payload_value [b0, b1, b2, b3, b4]).testBit (34 - i))
      ∧ ∀ c4, encode [b0, b1, b2, b3, c4] 5 16 = some f := by
  refine ⟨encode_card_data [b0, b1, b2, b3, b4], encode_eq _, ?_, ?_⟩
  · intro i hi
    have hv := fc_cn_eq b0 b1 b2 b3 [b4] h0 h1 h2 h3
    constructor
    · have e1 : (56 + 2 * i - 56) % 2 = 0 := by omega
      have e2 : (56 + 2 * i - 56) / 2 = i := by omega
      rw [rawBit_encode, if_neg (by omega), if_neg (by omega), if_neg (by omega),
        if_pos (by omega), if_pos e1, data_bit_eq, e2, hv]
    · have e1 : ¬ (57 + 2 * i - 56) % 2 = 0 := by omega
      have e2 : (57 + 2 * i - 56) / 2 = i := by omega
      rw [rawBit_encode, if_neg (by omega), if_neg (by omega), if_neg (by omega),
        if_pos (by omega), if_neg e1, data_bit_eq, e2, hv]
  · intro c4
    rw [encode_eq]
    rfl

theorem encode_data_field_witness :
    (0xAB < 256 ∧ 0xCD < 256 ∧ 0xEF < 256 ∧ 0x01 < 256) ∧
    ∃ f, encode [0xAB, 0xCD, 0xEF, 0x01, 0x7F] 5 16 = some f
      ∧ (∀ i, i < 35 →
          rawBit f (56 + 2 * i)
            = (payload_value [0xAB, 0xCD, 0xEF, 0x01, 0x7F]).testBit (34 - i)
          ∧ rawBit f (57 + 2 * i)
            = !(payload_value [0xAB, 0xCD, 0xEF, 0x01, 0x7F]).testBit (34 - i))
      ∧ ∀ c4, encode [0xAB, 0xCD, 0xEF, 0x01, c4] 5 16 = some f :=
  ⟨by decide,
    encode_data_field 0xAB 0xCD 0xEF 0x01 0x7F (by decide) (by decide) (by decide)
      (by decide)⟩

/-- C7: with `V` the big-endian value of payload bytes 0..3, raw bit 54 of the encoded
frame (the logical bit right after the format field) is the parity of the bit positions
17..34 of `V`, and raw bit 55 is its complement. -/
theorem encode_even_parity_bit (b0 b1 b2 b3 b4 : Nat)
    (h0 : b0 < 256) (h1 : b1 < 256) (h2 : b2 < 256) (h3 : b3 < 256) :
    ∃ f, encode [b0, b1, b2, b3, b4] 5 16 = some f
      ∧ rawBit f 54 = decide (bit_parity (payload_value [b0, b1, b2, b3, b4]) 17 34 = 1)
      ∧ rawBit f 55
          = !decide (bit_parity (payload_value [b0, b1, b2, b3, b4]) 17 34 = 1) := by
  have hv := fc_cn_eq b0 b1 b2 b3 [b4] h0 h1 h2 h3
  have hp : ∀ n : Nat, (n % 2 != 0) = decide (n % 2 = 1) := by
    intro n
    rcases Nat.mod_two_eq_zero_or_one n with h | h <;> simp [h]
  have hb : bit_parity (payload_value [b0, b1, b2, b3, b4]) 17 34 % 2
      = bit_parity (payload_value [b0, b1, b2, b3, b4]) 17 34 := by
    rw [bit_parity, Nat.mod_mod]
  refine ⟨encode_card_data [b0, b1, b2, b3, b4], encode_eq _, ?_, ?_⟩
  · rw [rawBit_encode, if_neg (by omega), if_pos rfl, hp, even_parity_eq, hv]
  · rw [rawBit_encode, if_neg (by omega), if_neg (by omega), if_pos rfl, hp, even_parity_eq,
      hv]

theorem encode_even_parity_bit_witness :
    (0x00 < 256 ∧ 0x02 < 256 ∧ 0x00 < 256 ∧ 0x00 < 256) ∧
    ∃ f, encode [0x00, 0x02, 0x00, 0x00, 0x00] 5 16 = some f
      ∧ rawBit f 54
          = decide (bit_parity (payload_value [0x00, 0x02, 0x00, 0x00, 0x00]) 17 34 = 1)
      ∧ rawBit f 55
          = !decide (bit_parity (payload_value [0x00, 0x02, 0x00, 0x00, 0x00]) 17 34 = 1) :=
  ⟨by decide,
    encode_even_parity_bit 0x00 0x02 0x00 0x00 0x00 (by decide) (by decide) (by decide)
      (by decide)⟩

/-- C8: the odd-parity pair is not in the frame.  For every payload raw bits 126 and 127
of the encoded frame are both 0, although for the payload of five zero bytes the logical
bit `(1 + parity of bits 0..17 of V) mod 2` is 1; the two stores go to raw positions
`10 + 118` and `10 + 119`, whose word index 4 is outside the four-word array. -/
theorem encode_odd_parity_pair_outside_frame :
    (∀ payload : List Nat, ∃ f, encode payload 5 16 = some f
        ∧ rawBit f 126 = false ∧ rawBit f 127 = false)
      ∧ (1 + bit_parity (payload_value [0, 0, 0, 0, 0]) 0 17) % 2 = 1
      ∧ (∀ (b : Bool) (cd : CardData), write_raw_bit_checked b (10 + 118) cd = none)
      ∧ (∀ (b : Bool) (cd : CardData),
          write_raw_bit_checked b ((10 + 118 + 1) % 256) cd = none) := by
  refine ⟨?_, by decide, ?_, ?_⟩
  · intro payload
    refine ⟨encode_card_data payload, encode_eq _, ?_, ?_⟩
    · rw [rawBit_encode]; rfl
    · rw [rawBit_encode]; rfl
  · intro b cd; rfl
  · intro b cd; rfl

/-! ## `decode` against its reference -/

theorem pair_eq (w n : Nat) : (w >>> (2 * n)) &&& 0b11 = w / 4 ^ n % 4 := by
  have h3 : (0b11 : Nat) = 2 ^ 2 - 1 := by norm_num
  rw [h3, Nat.and_pow_two_sub_one_eq_mod, Nat.shiftRight_eq_div_pow, Nat.pow_mul]

theorem shift_or_zero (r : Nat) : (r <<< 1) ||| 0 = 2 * r := by
  rw [Nat.or_zero, Nat.shiftLeft_eq]; omega

theorem shift_or_one (r : Nat) : (r <<< 1) ||| 1 = 2 * r + 1 := by
  rw [Nat.shiftLeft_eq, or_eq_add_of_lt r 1 1 (by norm_num)]; omega

theorem decode_step_eq (r pair k : Nat) (hr : r < 2 ^ k) (hk : k + 1 ≤ 64) :
    decode_step r pair = (match pair_bit pair with | some b => 2 * r + b | none => r)
      ∧ decode_step r pair < 2 ^ (k + 1) := by
  have h2 : 2 * r + 1 < 2 ^ (k + 1) := by rw [Nat.pow_succ]; omega
  have h64 : 2 ^ (k + 1) ≤ 2 ^ 64 := Nat.pow_le_pow_right (by norm_num) hk
  have hrk : r < 2 ^ (k + 1) := by omega
  match pair with
  | 0 => exact ⟨rfl, hrk⟩
  | 1 =>
    have e : decode_step r 1 = 2 * r + 0 := by
      show ((r <<< 1) ||| 0) % 2 ^ 64 = 2 * r + 0
      rw [shift_or_zero, Nat.mod_eq_of_lt (by omega)]; rfl
    exact ⟨e, by rw [e]; omega⟩
  | 2 =>
    have e : decode_step r 2 = 2 * r + 1 := by
      show ((r <<< 1) ||| 1) % 2 ^ 64 = 2 * r + 1
      rw [shift_or_one, Nat.mod_eq_of_lt (by omega)]
    exact ⟨e, by rw [e]; omega⟩
  | n + 3 => exact ⟨rfl, hrk⟩

theorem pairs_of_succ (w n : Nat) : pairs_of w (n + 1) = (w / 4 ^ n % 4) :: pairs_of w n := by
  simp only [pairs_of, List.range_succ, List.reverse_append, List.reverse_cons,
    List.reverse_nil, List.nil_append, List.singleton_append, List.map_cons]

theorem decode_word_eq (w n r k : Nat) (hr : r < 2 ^ k) (hk : k + n ≤ 64) :
    decode_word w n r
        = ((pairs_of w n).filterMap pair_bit).foldl (fun r b => 2 * r + b) r
      ∧ decode_word w n r < 2 ^ (k + n) := by
  induction n generalizing r k with
  | zero => exact ⟨rfl, hr⟩
  | succ n ih =>
    obtain ⟨hs, hlt⟩ := decode_step_eq r (w / 4 ^ n % 4) k hr (by omega)
    obtain ⟨h1, h2⟩ := ih (decode_step r (w / 4 ^ n % 4)) (k + 1) hlt (by omega)
    have e : decode_word w (n + 1) r = decode_word w n (decode_step r (w / 4 ^ n % 4)) := by
      rw [decode_word, pair_eq]
    refine ⟨?_, by rw [e]; rw [Nat.add_assoc, Nat.add_comm 1 n] at h2; exact h2⟩
    rw [e, h1, pairs_of_succ, List.filterMap_cons, hs]
    cases pair_bit (w / 4 ^ n % 4) <;> rfl

theorem decode_result_eq (cd : CardData) : decode_result cd = decode_ref_result cd := by
  obtain ⟨a1, b1⟩ := decode_word_eq cd.w1 10 0 0 (by norm_num) (by norm_num)
  obtain ⟨a2, b2⟩ := decode_word_eq cd.w2 16 _ _ b1 (by norm_num)
  obtain ⟨a3, _⟩ := decode_word_eq cd.w3 16 _ _ b2 (by norm_num)
  rw [decode_result, a3, a2, a1, decode_ref_result, List.filterMap_append,
    List.filterMap_append, List.foldl_append, List.foldl_append]

theorem decode_eq (cd : CardData) : decode cd 16 5 = some (decode_data (decode_result cd)) := by
  simp [decode, get_decoded_data_size, get_encoded_data_size, HID10304Count]

theorem pair_mod (w m n : Nat) (h : n < m) : w % 4 ^ m / 4 ^ n % 4 = w / 4 ^ n % 4 := by
  obtain ⟨d, rfl⟩ : ∃ d, m = n + (d + 1) := ⟨m - n - 1, by omega⟩
  rw [Nat.pow_add, Nat.mod_mul_right_div_self, Nat.pow_succ,
    Nat.mod_mod_of_dvd _ (Dvd.intro_left _ rfl)]

theorem pairs_of_mod (w m n : Nat) (h : n ≤ m) : pairs_of (w % 4 ^ m) n = pairs_of w n := by
  induction n with
  | zero => rfl
  | succ n ih => rw [pairs_of_succ, pairs_of_succ, pair_mod w m n (by omega), ih (by omega)]

/-- C10: on every four-word frame `decode` returns the bytes of the reference decoder
(the accumulator built from the valid pairs of bits 19..0 of word 1, then of word 2,
then of word 3, most significant pair first, split as `r >> 33, r >> 25, r >> 17, r >> 9,
r >> 1` mod 256); the output is the same when word 0 is replaced by 0 and the top 12 bits
of word 1 are cleared. -/
theorem decode_eq_decode_ref (w0 w1 w2 w3 : Nat) :
    decode ⟨w0, w1, w2, w3⟩ 16 5 = some (decode_ref ⟨w0, w1, w2, w3⟩)
      ∧ ∀ v0 : Nat, decode ⟨v0, w1 % 2 ^ 20, w2, w3⟩ 16 5 = decode ⟨w0, w1, w2, w3⟩ 16 5 := by
  have key : ∀ cd : CardData, decode cd 16 5 = some (decode_ref cd) := by
    intro cd
    rw [decode_eq, decode_result_eq]
    simp only [decode_data, decode_ref, ref_bytes, Nat.shiftRight_eq_div_pow]
  refine ⟨key _, ?_⟩
  intro v0
  rw [key, key]
  have e : pairs_of (w1 % 2 ^ 20) 10 = pairs_of w1 10 := by
    have := pairs_of_mod w1 10 10 (le_refl 10)
    norm_num at this ⊢
    exact this
  simp only [decode_ref, decode_ref_result, e]

/-! ## Decoding an encoded frame -/

theorem testBit_toNat (x : Nat) (i : Nat) : (x.testBit i).toNat = x / 2 ^ i % 2 := by
  rw [Nat.testBit_to_div_mod]
  rcases Nat.mod_two_eq_zero_or_one (x / 2 ^ i) with h | h <;> simp [h]

theorem pair_of_manchester (w n : Nat) (b : Bool)
    (h1 : w.testBit (2 * n + 1) = b) (h0 : w.testBit (2 * n) = !b) :
    pair_bit (w / 4 ^ n % 4) = some b.toNat := by
  have e1 := testBit_toNat w (2 * n + 1)
  have e0 := testBit_toNat w (2 * n)
  rw [h1] at e1
  rw [h0] at e0
  have h4 : (4 : Nat) ^ n = 2 ^ (2 * n) := by rw [Nat.pow_mul]
  rw [Nat.pow_succ, ← Nat.div_div_eq_div_mul] at e1
  rw [h4]
  cases b
  · have : w / 2 ^ (2 * n) % 4 = 1 := by
      simp only [Bool.toNat_false, Bool.not_false, Bool.toNat_true] at e0 e1
      omega
    rw [this]; rfl
  · have : w / 2 ^ (2 * n) % 4 = 2 := by
      simp only [Bool.toNat_false, Bool.not_true, Bool.toNat_true] at e0 e1
      omega
    rw [this]; rfl

theorem decode_word_manchester (w m n r k : Nat) (g : Nat → Bool)
    (hg : ∀ i, i < n →
      w.testBit (2 * (m + i) + 1) = g i ∧ w.testBit (2 * (m + i)) = !g i)
    (hr : r < 2 ^ k) (hk : k + n ≤ 64) :
    decode_word w (m + n) r = decode_word w m (r * 2 ^ n + bits_value g n) := by
  induction n generalizing r k with
  | zero => simp [bits_value]
  | succ n ih =>
    obtain ⟨hs, hlt⟩ := decode_step_eq r (w / 4 ^ (m + n) % 4) k hr (by omega)
    rw [pair_of_manchester w (m + n) (g n) (hg n (by omega)).1 (hg n (by omega)).2] at hs
    have e : decode_word w (m + (n + 1)) r
        = decode_word w (m + n) (decode_step r (w / 4 ^ (m + n) % 4)) := by
      rw [← Nat.add_assoc, decode_word, pair_eq]
    rw [e, ih _ (k + 1) (fun i hi => hg i (by omega)) hlt (by omega), hs]
    congr 1
    simp only [bits_value, Nat.pow_succ]
    ring

theorem bits_value_testBit (v a n : Nat) :
    bits_value (fun i => v.testBit (a + i)) n = v / 2 ^ a % 2 ^ n := by
  induction n with
  | zero => simp [bits_value, Nat.mod_one]
  | succ n ih =>
    rw [bits_value, ih, testBit_toNat, Nat.mod_pow_succ, Nat.pow_add,
      ← Nat.div_div_eq_div_mul]
    ring

theorem rawBit_encode_data (payload : List Nat) (t : Nat) (ht : t < 35) :
    rawBit (encode_card_data payload) (56 + 2 * t) = (fc_cn payload).testBit (34 - t)
      ∧ rawBit (encode_card_data payload) (57 + 2 * t)
          = !(fc_cn payload).testBit (34 - t) := by
  constructor
  · have e1 : (56 + 2 * t - 56) % 2 = 0 := by omega
    have e2 : (56 + 2 * t - 56) / 2 = t := by omega
    rw [rawBit_encode, if_neg (by omega), if_neg (by omega), if_neg (by omega),
      if_pos (by omega), if_pos e1, data_bit_eq, e2]
  · have e1 : ¬ (57 + 2 * t - 56) % 2 = 0 := by omega
    have e2 : (57 + 2 * t - 56) / 2 = t := by omega
    rw [rawBit_encode, if_neg (by omega), if_neg (by omega), if_neg (by omega),
      if_pos (by omega), if_neg e1, data_bit_eq, e2]

theorem testBit_w1_encode_fixed (payload : List Nat) (j : Nat) (h1 : 10 ≤ j) (h2 : j < 32) :
    (encode_card_data payload).w1.testBit j = fixed_card_data.w1.testBit j := by
  rw [testBit_w1 _ j h2, rawBit_encode, if_pos (by omega), ← testBit_w1 _ j h2]

theorem bool_toNat_bne (n : Nat) : (n % 2 != 0).toNat = n % 2 := by
  rcases Nat.mod_two_eq_zero_or_one n with h | h <;> simp [h]

theorem decode_w1_encode (payload : List Nat) :
    decode_word (encode_card_data payload).w1 10 0
      = (8 + even_parity_sum (fc_cn payload) % 2) * 16 + fc_cn payload / 2 ^ 31 % 16 := by
  have hA : decode_word (encode_card_data payload).w1 (5 + 5) 0
      = decode_word (encode_card_data payload).w1 5
          (0 * 2 ^ 5 + bits_value (fun i => decide (i = 2)) 5) := by
    apply decode_word_manchester _ 5 5 0 0 _ _ (by norm_num) (by norm_num)
    intro i hi
    interval_cases i <;>
      exact ⟨by rw [testBit_w1_encode_fixed _ _ (by norm_num) (by norm_num)]; decide,
        by rw [testBit_w1_encode_fixed _ _ (by norm_num) (by norm_num)]; decide⟩
  have hA2 : (0 * 2 ^ 5 + bits_value (fun i => decide (i = 2)) 5) = 4 := by decide
  have hB : decode_word (encode_card_data payload).w1 (4 + 1) 4
      = decode_word (encode_card_data payload).w1 4
          (4 * 2 ^ 1
            + bits_value (fun _ => (even_parity_sum (fc_cn payload) % 2 != 0)) 1) := by
    apply decode_word_manchester _ 4 1 4 3 _ _ (by norm_num) (by norm_num)
    intro i hi
    interval_cases i
    constructor
    · rw [testBit_w1 _ _ (by norm_num), rawBit_encode]; rfl
    · rw [testBit_w1 _ _ (by norm_num), rawBit_encode]; rfl
  have hB2 : (4 * 2 ^ 1
      + bits_value (fun _ => (even_parity_sum (fc_cn payload) % 2 != 0)) 1)
      = 8 + even_parity_sum (fc_cn payload) % 2 := by
    simp only [bits_value, bool_toNat_bne]
    omega
  have hC : decode_word (encode_card_data payload).w1 (0 + 4)
        (8 + even_parity_sum (fc_cn payload) % 2)
      = decode_word (encode_card_data payload).w1 0
          ((8 + even_parity_sum (fc_cn payload) % 2) * 2 ^ 4
            + bits_value (fun i => (fc_cn payload).testBit (31 + i)) 4) := by
    apply decode_word_manchester _ 0 4 _ 4 _ _ (by omega) (by norm_num)
    intro i hi
    have h := rawBit_encode_data payload (3 - i) (by omega)
    have e1 : 63 - (2 * (0 + i) + 1) = 56 + 2 * (3 - i) := by omega
    have e2 : 63 - (2 * (0 + i)) = 57 + 2 * (3 - i) := by omega
    have e3 : 34 - (3 - i) = 31 + i := by omega
    rw [testBit_w1 _ _ (by omega), testBit_w1 _ _ (by omega), e1, e2, h.1, h.2, e3]
    exact ⟨rfl, rfl⟩
  have h10 : (10 : Nat) = 5 + 5 := rfl
  have h5 : (5 : Nat) = 4 + 1 := rfl
  have h4 : (4 : Nat) = 0 + 4 := rfl
  rw [h10, hA, hA2, h5, hB, hB2, h4, hC, bits_value_testBit]
  rfl

theorem decode_w2_encode (payload : List Nat) (r : Nat) (hr : r < 2 ^ 10) :
    decode_word (encode_card_data payload).w2 16 r
      = r * 2 ^ 16 + fc_cn payload / 2 ^ 15 % 2 ^ 16 := by
  have hA : decode_word (encode_card_data payload).w2 (0 + 16) r
      = decode_word (encode_card_data payload).w2 0
          (r * 2 ^ 16 + bits_value (fun i => (fc_cn payload).testBit (15 + i)) 16) := by
    apply decode_word_manchester _ 0 16 r 10 _ _ hr (by norm_num)
    intro i hi
    have h := rawBit_encode_data payload (19 - i) (by omega)
    have e1 : 95 - (2 * (0 + i) + 1) = 56 + 2 * (19 - i) := by omega
    have e2 : 95 - (2 * (0 + i)) = 57 + 2 * (19 - i) := by omega
    have e3 : 34 - (19 - i) = 15 + i := by omega
    rw [testBit_w2 _ _ (by omega), testBit_w2 _ _ (by omega), e1, e2, h.1, h.2, e3]
    exact ⟨rfl, rfl⟩
  have h16 : (16 : Nat) = 0 + 16 := rfl
  rw [h16, hA, bits_value_testBit]
  rfl

theorem decode_w3_encode (payload : List Nat) (r : Nat) (hr : r < 2 ^ 26) :
    decode_word (encode_card_data payload).w3 16 r
      = decode_step (r * 2 ^ 15 + fc_cn payload % 2 ^ 15)
          ((encode_card_data payload).w3 % 4) := by
  have hA : decode_word (encode_card_data payload).w3 (1 + 15) r
      = decode_word (encode_card_data payload).w3 1
          (r * 2 ^ 15 + bits_value (fun i => (fc_cn payload).testBit (0 + i)) 15) := by
    apply decode_word_manchester _ 1 15 r 26 _ _ hr (by norm_num)
    intro i hi
    have h := rawBit_encode_data payload (34 - i) (by omega)
    have e1 : 127 - (2 * (1 + i) + 1) = 56 + 2 * (34 - i) := by omega
    have e2 : 127 - (2 * (1 + i)) = 57 + 2 * (34 - i) := by omega
    have e3 : 34 - (34 - i) = 0 + i := by omega
    rw [testBit_w3 _ _ (by omega), testBit_w3 _ _ (by omega), e1, e2, h.1, h.2, e3]
    exact ⟨rfl, rfl⟩
  have h16 : (16 : Nat) = 1 + 15 := rfl
  have hp := pair_eq (encode_card_data payload).w3 0
  rw [Nat.pow_zero, Nat.div_one] at hp
  rw [h16, hA, bits_value_testBit, decode_word, decode_word, hp, Nat.pow_zero, Nat.div_one]

/-- The accumulator of `decode` on an encoded frame: the format bits 00100, the
even-parity bit and 35 bits of `fc_cn`, then one round on the last pair of word 3. -/
theorem decode_result_encode (payload : List Nat) (hv : fc_cn payload < 2 ^ 35) :
    decode_result (encode_card_data payload)
      = decode_step
          (2 ^ 38 + (even_parity_sum (fc_cn payload) % 2) * 2 ^ 35 + fc_cn payload)
          ((encode_card_data payload).w3 % 4) := by
  have e2 := Nat.mod_two_eq_zero_or_one (even_parity_sum (fc_cn payload))
  rw [decode_result, decode_w1_encode, decode_w2_encode _ _ (by omega),
    decode_w3_encode _ _ (by omega)]
  congr 1
  omega

/-! ## The round trip -/

theorem decode_data_eq (r : Nat) : decode_data r = ref_bytes r := by
  simp only [decode_data, ref_bytes, Nat.shiftRight_eq_div_pow]

theorem decode_step_eq_ref_append (r pair : Nat) (hr : r < 2 ^ 63) :
    decode_step r pair = ref_append r pair :=
  (decode_step_eq r pair 63 hr (by norm_num)).1

/-- C1, as amended: for payload bytes 0..3 of big-endian value `V`, `decode` of the encoded
frame returns the byte split (`r >> 33, r >> 25, r >> 17, r >> 9, r >> 1`, each mod 256)
of the accumulator `r` obtained from `2 ^ 38 + E * 2 ^ 35 + V` (the format bits 00100, the
even-parity bit `E` of bits 17..34 of `V`, the 35 bits of `V`) by appending the logical bit
of the last raw pair of the frame, if that pair is valid. -/
theorem decode_encode_accumulator (b0 b1 b2 b3 b4 : Nat)
    (h0 : b0 < 256) (h1 : b1 < 256) (h2 : b2 < 256) (h3 : b3 < 256) :
    ∃ f, encode [b0, b1, b2, b3, b4] 5 16 = some f
      ∧ decode f 16 5
          = some (ref_bytes (ref_append
              (2 ^ 38 + bit_parity (payload_value [b0, b1, b2, b3, b4]) 17 34 * 2 ^ 35
                + payload_value [b0, b1, b2, b3, b4])
              (f.w3 % 4))) := by
  have hv := fc_cn_eq b0 b1 b2 b3 [b4] h0 h1 h2 h3
  have hlt := payload_value_lt b0 b1 b2 b3 [b4] h0 h1 h2 h3
  have hp : bit_parity (payload_value [b0, b1, b2, b3, b4]) 17 34 < 2 := by
    rw [bit_parity]; exact Nat.mod_lt _ (by norm_num)
  refine ⟨encode_card_data [b0, b1, b2, b3, b4], encode_eq _, ?_⟩
  rw [decode_eq, decode_result_encode _ (by rw [hv]; omega), even_parity_eq, hv,
    decode_data_eq, decode_step_eq_ref_append _ _ (by omega)]

theorem decode_encode_accumulator_witness :
    (0x12 < 256 ∧ 0x34 < 256 ∧ 0x56 < 256 ∧ 0x78 < 256) ∧
    ∃ f, encode [0x12, 0x34, 0x56, 0x78, 0x9A] 5 16 = some f
      ∧ decode f 16 5
          = some (ref_bytes (ref_append
              (2 ^ 38 + bit_parity (payload_value [0x12, 0x34, 0x56, 0x78, 0x9A]) 17 34 * 2 ^ 35
                + payload_value [0x12, 0x34, 0x56, 0x78, 0x9A])
              (f.w3 % 4))) :=
  ⟨by decide,
    decode_encode_accumulator 0x12 0x34 0x56 0x78 0x9A (by decide) (by decide) (by decide)
      (by decide)⟩

/-- C1, counterexample: for the payload `{0x00, 0x00, 0x00, 0x01, 0x00}` the decoded frame
is `{0x20, 0x00, 0x00, 0x00, 0x00}`, not the payload. -/
theorem decode_encode_ne_payload :
    (encode [0x00, 0x00, 0x00, 0x01, 0x00] 5 16).bind (fun f => decode f 16 5)
        = some [0x20, 0x00, 0x00, 0x00, 0x00]
      ∧ ¬ ((encode [0x00, 0x00, 0x00, 0x01, 0x00] 5 16).bind (fun f => decode f 16 5)
        = some [0x00, 0x00, 0x00, 0x01, 0x00]) := by
  decide

theorem ref_append_cases (r t : Nat) :
    ref_append r t = r ∨ ref_append r t = 2 * r + 0 ∨ ref_append r t = 2 * r + 1 := by
  match t with
  | 0 => exact Or.inl rfl
  | 1 => exact Or.inr (Or.inl rfl)
  | 2 => exact Or.inr (Or.inr rfl)
  | n + 3 => exact Or.inl rfl

/-- C9, as amended: for the payload `{0x00, 0x00, 0x00, 0x01, 0x00}` the decoded frame is
the byte split of the accumulator obtained from `2 ^ 38 + 1` (format bits 00100,
even-parity bit 0, `V = 1` on 35 bits) by appending the logical bit of the last raw pair
of the frame, if that pair is valid; whatever that pair is, the byte split is
`{0x20, 0, 0, 0, 0}` or `{0x40, 0, 0, 0, 0x01}` and never `{0, 0, 0, 0, 0x02}`. -/
theorem golden_vector_decode :
    ∃ f, encode [0x00, 0x00, 0x00, 0x01, 0x00] 5 16 = some f
      ∧ decode f 16 5 = some (ref_bytes (ref_append (2 ^ 38 + 1) (f.w3 % 4)))
      ∧ (∀ t, ref_bytes (ref_append (2 ^ 38 + 1) t) = [0x20, 0x00, 0x00, 0x00, 0x00]
          ∨ ref_bytes (ref_append (2 ^ 38 + 1) t) = [0x40, 0x00, 0x00, 0x00, 0x01])
      ∧ ∀ t, ref_bytes (ref_append (2 ^ 38 + 1) t) ≠ [0x00, 0x00, 0x00, 0x00, 0x02] := by
  refine ⟨encode_card_data [0x00, 0x00, 0x00, 0x01, 0x00], by decide, by decide, ?_, ?_⟩
  · intro t
    rcases ref_append_cases (2 ^ 38 + 1) t with h | h | h <;> rw [h] <;> decide
  · intro t
    rcases ref_append_cases (2 ^ 38 + 1) t with h | h | h <;> rw [h] <;> decide

/-- C9, counterexample: for the payload `{0x00, 0x00, 0x00, 0x01, 0x00}` the decoded frame
is not `{0x00, 0x00, 0x00, 0x00, 0x02}`. -/
theorem golden_vector_ne :
    ¬ ((encode [0x00, 0x00, 0x00, 0x01, 0x00] 5 16).bind (fun f => decode f 16 5)
        = some [0x00, 0x00, 0x00, 0x00, 0x02]) := by
  decide

/-! ## The validator and the ready flag -/

theorem can_be_decoded_tests_exclusive (w : Nat) :
    ¬ (((w >>> 7) &&& 0xFF) = 0x1D ∧ (w &&& 0x3FFF) = 0x1556) := by
  rintro ⟨h1, h2⟩
  have a := congrArg (fun x => Nat.testBit x 0) h1
  have b := congrArg (fun x => Nat.testBit x 7) h2
  simp only [Nat.testBit_and, Nat.testBit_shiftRight] at a b
  have a1 : Nat.testBit 0xFF 0 = true := by decide
  have a2 : Nat.testBit 0x1D 0 = true := by decide
  have b1 : Nat.testBit 0x3FFF 7 = true := by decide
  have b2 : Nat.testBit 0x1556 7 = false := by decide
  rw [a1, a2] at a
  rw [b1, b2] at b
  simp at a b
  rw [a] at b
  exact Bool.noConfusion b

theorem can_be_decoded_ne_true (cd : CardData) (n : Nat) : can_be_decoded cd n ≠ some true := by
  unfold can_be_decoded
  by_cases h1 : n < get_encoded_data_size
  · simp [h1]
  · by_cases h2 : ((cd.w0 >>> 7) &&& 0xFF) = 0x1D
    · have h3 : ¬ (cd.w0 &&& 0x3FFF) = 0x1556 := fun h =>
        can_be_decoded_tests_exclusive cd.w0 ⟨h2, h⟩
      simp [h1, h2, h3]
    · simp [h1, h2]

theorem can_be_decoded_eq_false (cd : CardData) : can_be_decoded cd 16 = some false := by
  have h := can_be_decoded_ne_true cd 16
  have hs : ¬ (16 < get_encoded_data_size) := by decide
  unfold can_be_decoded at h ⊢
  rw [if_neg hs] at h ⊢
  by_cases h2 : ((cd.w0 >>> 7) &&& 0xFF) = 0x1D
  · have h3 : ¬ (cd.w0 &&& 0x3FFF) = 0x1556 := fun h =>
      can_be_decoded_tests_exclusive cd.w0 ⟨h2, h⟩
    simp [h2, h3]
  · simp [h2]

theorem store_data_ready (d : DecoderHID37) (data : Bool) :
    (d.store_data data).ready = d.ready := by
  simp only [DecoderHID37.store_data, can_be_decoded_ne_true, if_false]

theorem process_front_ready (d : DecoderHID37) (rising_edge : Bool) (edge_clocks : Nat)
    (h : d.ready = false) : (d.process_front rising_edge edge_clocks).ready = false := by
  simp only [DecoderHID37.process_front, h]
  simp only [Bool.false_eq_true, if_false]
  split_ifs <;> simp only [store_data_ready, h]

theorem feed_ready (d : DecoderHID37) (events : List (Bool × Nat)) (h : d.ready = false) :
    (feed d events).ready = false := by
  induction events generalizing d with
  | nil => exact h
  | cons e es ih =>
    simp only [feed, List.foldl_cons]
    exact ih _ (process_front_ready d e.1 e.2 h)

/-- C2: the validator rejects every encoded frame.  For every payload `encode` returns a
frame and `can_be_decoded` returns false on it: word 0 of every encoded frame is
0x00075556, whose bits 14..7 are 0xAA and not the 0x1D the first test compares with. -/
theorem can_be_decoded_encode_false (payload : List Nat) :
    ∃ f, encode payload 5 16 = some f
      ∧ can_be_decoded f 16 = some false
      ∧ (f.w0 >>> 7) &&& 0xFF = 0xAA := by
  refine ⟨encode_card_data payload, encode_eq _, can_be_decoded_eq_false _, ?_⟩
  rw [encode_w0]
  decide

/-- C4: the validator is not the reference test.  The frame with word 0 equal to
0x00075556 (raw bits [10..18) = 00011101, raw bits [18..32) = Manchester of 0000001) and
the other words 0 passes the reference test and is rejected by `can_be_decoded`. -/
theorem can_be_decoded_ne_ref :
    can_be_decoded_ref ⟨0x00075556, 0, 0, 0⟩ = true
      ∧ can_be_decoded ⟨0x00075556, 0, 0, 0⟩ 16 = some false := by
  decide

/-! ## The shift register -/

theorem testBit_shift_word (w c j : Nat) (hj : j < 32) (hc : c < 2) :
    (((w <<< 1) ||| c) % 2 ^ 32).testBit j
      = if j = 0 then decide (c = 1) else w.testBit (j - 1) := by
  have hc2 : c = 0 ∨ c = 1 := by omega
  rw [Nat.testBit_mod_two_pow, Nat.testBit_or, Nat.testBit_shiftLeft]
  by_cases h0 : j = 0
  · subst h0
    rcases hc2 with h | h <;> subst h <;> simp
  · have h1 : 1 ≤ j := by omega
    have hcj : c.testBit j = false := by
      rcases hc2 with h | h <;> subst h
      · simp
      · exact Nat.testBit_lt_two_pow (Nat.one_lt_two_pow h0)
    simp [hj, h1, h0, hcj]

theorem shifted_bit_lt (w : Nat) : (w >>> 31) &&& 1 < 2 := by
  rw [Nat.and_one_is_mod]; omega

theorem shifted_bit_eq (w : Nat) : decide ((w >>> 31) &&& 1 = 1) = w.testBit 31 := by
  rw [Nat.testBit_to_div_mod, Nat.and_one_is_mod, Nat.shiftRight_eq_div_pow]

theorem rawBit_shift_in (cd : CardData) (b : Bool) (q : Nat) (hq : q < 128) :
    rawBit (DecoderHID37.shift_in cd b) q = if q = 127 then b else rawBit cd (q + 1) := by
  have hb : b.toNat < 2 := by cases b <;> simp
  have hb1 : decide (b.toNat = 1) = b := by cases b <;> simp
  have hj : 31 - q % 32 < 32 := by omega
  have h2 : q / 32 = 0 ∨ q / 32 = 1 ∨ q / 32 = 2 ∨ q / 32 = 3 := by omega
  by_cases hlow : q % 32 = 31
  · have hj0 : 31 - q % 32 = 0 := by omega
    have hn : 31 - (q + 1) % 32 = 31 := by omega
    rcases h2 with g | g | g | g
    · have g1 : (q + 1) / 32 = 1 := by omega
      have hq127 : ¬ q = 127 := by omega
      simp only [rawBit, DecoderHID37.shift_in, CardData.word, g, g1, hn, hj0, hq127,
        if_false, testBit_shift_word _ _ 0 (by norm_num) (shifted_bit_lt _), if_true,
        shifted_bit_eq]
    · have g1 : (q + 1) / 32 = 2 := by omega
      have hq127 : ¬ q = 127 := by omega
      simp only [rawBit, DecoderHID37.shift_in, CardData.word, g, g1, hn, hj0, hq127,
        if_false, testBit_shift_word _ _ 0 (by norm_num) (shifted_bit_lt _), if_true,
        shifted_bit_eq]
    · have g1 : (q + 1) / 32 = 3 := by omega
      have hq127 : ¬ q = 127 := by omega
      simp only [rawBit, DecoderHID37.shift_in, CardData.word, g, g1, hn, hj0, hq127,
        if_false, testBit_shift_word _ _ 0 (by norm_num) (shifted_bit_lt _), if_true,
        shifted_bit_eq]
    · have hq127 : q = 127 := by omega
      simp only [rawBit, DecoderHID37.shift_in, CardData.word, g, hj0, hq127,
        testBit_shift_word _ _ 0 (by norm_num) hb, if_true, hb1]
  · have hq127 : ¬ q = 127 := by omega
    have hj0 : ¬ (31 - q % 32 = 0) := by omega
    have hn : 31 - (q + 1) % 32 = 31 - q % 32 - 1 := by omega
    have g1 : (q + 1) / 32 = q / 32 := by omega
    rcases h2 with g | g | g | g
    · rw [g] at g1
      simp only [rawBit, DecoderHID37.shift_in, CardData.word, g, g1, hn, hq127, if_false,
        testBit_shift_word _ _ _ hj (shifted_bit_lt _), hj0]
    · rw [g] at g1
      simp only [rawBit, DecoderHID37.shift_in, CardData.word, g, g1, hn, hq127, if_false,
        testBit_shift_word _ _ _ hj (shifted_bit_lt _), hj0]
    · rw [g] at g1
      simp only [rawBit, DecoderHID37.shift_in, CardData.word, g, g1, hn, hq127, if_false,
        testBit_shift_word _ _ _ hj (shifted_bit_lt _), hj0]
    · rw [g] at g1
      simp only [rawBit, DecoderHID37.shift_in, CardData.word, g, g1, hn, hq127, if_false,
        testBit_shift_word _ _ _ hj hb, hj0]

theorem shift_bits_append (cd : CardData) (xs ys : List Bool) :
    shift_bits cd (xs ++ ys) = shift_bits (shift_bits cd xs) ys := by
  simp only [shift_bits, List.foldl_append]

theorem rawBit_shift_bits (bits : List Bool) (cd : CardData) (q : Nat) (hq : q < 128)
    (hn : bits.length ≤ 128) :
    rawBit (shift_bits cd bits) q
      = if 128 ≤ q + bits.length then bits.getD (q + bits.length - 128) false
        else rawBit cd (q + bits.length) := by
  induction bits using List.reverseRecOn generalizing q with
  | nil => simp [shift_bits]; omega
  | append_singleton xs b ih =>
    rw [shift_bits_append]
    have hl : (xs ++ [b]).length = xs.length + 1 := by simp
    rw [hl] at hn ⊢
    have e : shift_bits (shift_bits cd xs) [b]
        = DecoderHID37.shift_in (shift_bits cd xs) b := rfl
    rw [e, rawBit_shift_in _ _ _ hq]
    by_cases h127 : q = 127
    · subst h127
      have : 128 ≤ 127 + (xs.length + 1) := by omega
      rw [if_pos rfl, if_pos this]
      have e2 : 127 + (xs.length + 1) - 128 = xs.length := by omega
      rw [e2, List.getD_append_right _ _ _ _ (le_refl _)]
      simp
    · rw [if_neg h127, ih (q + 1) (by omega) (by omega)]
      by_cases hc : 128 ≤ q + 1 + xs.length
      · have hc2 : 128 ≤ q + (xs.length + 1) := by omega
        rw [if_pos hc, if_pos hc2]
        have e2 : q + (xs.length + 1) - 128 = q + 1 + xs.length - 128 := by omega
        rw [e2, List.getD_append _ _ _ _ (by omega)]
      · have hc2 : ¬ 128 ≤ q + (xs.length + 1) := by omega
        rw [if_neg hc, if_neg hc2]
        congr 1
        omega

/-! ## Pulses of nominal width -/

theorem store_data_eq (d : DecoderHID37) (data : Bool) :
    d.store_data data = { d with stored_data := DecoderHID37.shift_in d.stored_data data } := by
  simp only [DecoderHID37.store_data, can_be_decoded_ne_true, if_false]

theorem feed_append (d : DecoderHID37) (xs ys : List (Bool × Nat)) :
    feed d (xs ++ ys) = feed (feed d xs) ys := by
  simp only [feed, List.foldl_append]

theorem feed_short_same (sd : CardData) (c pc : Nat) :
    feed ⟨sd, false, c, false, pc⟩ (pulse_edges nominal_short_clocks)
      = if (c + 1) % 256 > 5 then ⟨DecoderHID37.shift_in sd false, false, 0, false, 4096⟩
        else ⟨sd, false, (c + 1) % 256, false, 4096⟩ := by
  simp [feed, pulse_edges, nominal_short_clocks, min_time_us, clocks_in_us,
    DecoderHID37.process_front, min_clocks, max_clocks, mid_clocks, jitter_time_us,
    max_time_us, store_data_eq, pulse_count_bits]

theorem feed_short_change (sd : CardData) (c pc : Nat) :
    feed ⟨sd, true, c, false, pc⟩ (pulse_edges nominal_short_clocks)
      = ⟨if c > 2 then DecoderHID37.shift_in sd true else sd, false, 0, false, 4096⟩ := by
  simp [feed, pulse_edges, nominal_short_clocks, min_time_us, clocks_in_us,
    DecoderHID37.process_front, min_clocks, max_clocks, mid_clocks, jitter_time_us,
    max_time_us, store_data_eq]
  split_ifs <;> exact ⟨rfl, rfl, rfl⟩

theorem feed_long_same (sd : CardData) (c pc : Nat) :
    feed ⟨sd, true, c, false, pc⟩ (pulse_edges nominal_long_clocks)
      = if (c + 1) % 256 > 4 then ⟨DecoderHID37.shift_in sd true, true, 0, false, 5120⟩
        else ⟨sd, true, (c + 1) % 256, false, 5120⟩ := by
  simp [feed, pulse_edges, nominal_long_clocks, min_time_us, clocks_in_us,
    DecoderHID37.process_front, min_clocks, max_clocks, mid_clocks, jitter_time_us,
    max_time_us, store_data_eq, pulse_count_bits]

theorem feed_long_change (sd : CardData) (c pc : Nat) :
    feed ⟨sd, false, c, false, pc⟩ (pulse_edges nominal_long_clocks)
      = ⟨if c > 3 then DecoderHID37.shift_in sd false else sd, true, 0, false, 5120⟩ := by
  simp [feed, pulse_edges, nominal_long_clocks, min_time_us, clocks_in_us,
    DecoderHID37.process_front, min_clocks, max_clocks, mid_clocks, jitter_time_us,
    max_time_us, store_data_eq]
  split_ifs <;> exact ⟨rfl, rfl, rfl⟩

/-! ## Runs of pulses: one frame bit at a time -/

theorem bit_edges_true :
    bit_edges true
      = pulse_edges nominal_long_clocks ++ (pulse_edges nominal_long_clocks
        ++ (pulse_edges nominal_long_clocks ++ (pulse_edges nominal_long_clocks
        ++ pulse_edges nominal_long_clocks))) := rfl

theorem bit_edges_false :
    bit_edges false
      = pulse_edges nominal_short_clocks ++ (pulse_edges nominal_short_clocks
        ++ (pulse_edges nominal_short_clocks ++ (pulse_edges nominal_short_clocks
        ++ (pulse_edges nominal_short_clocks ++ pulse_edges nominal_short_clocks)))) := rfl

theorem feed_bit_idle_false (sd : CardData) (pc : Nat) :
    feed ⟨sd, false, 0, false, pc⟩ (bit_edges false)
      = ⟨DecoderHID37.shift_in sd false, false, 0, false, 4096⟩ := by
  simp [bit_edges_false, feed_append, feed_short_same]

theorem feed_bit_idle_true (sd : CardData) (pc : Nat) :
    feed ⟨sd, false, 0, false, pc⟩ (bit_edges true) = ⟨sd, true, 4, false, 5120⟩ := by
  simp [bit_edges_true, feed_append, feed_long_same, feed_long_change]

theorem feed_bit_pending (sd : CardData) (b c : Bool) (pc : Nat) :
    feed ⟨sd, b, if b then 4 else 5, false, pc⟩ (bit_edges c)
      = ⟨DecoderHID37.shift_in sd b, c, if c then 4 else 5, false,
          if c then 5120 else 4096⟩ := by
  cases b <;> cases c <;>
    simp [bit_edges_true, bit_edges_false, feed_append, feed_long_same, feed_long_change,
      feed_short_same, feed_short_change]

theorem edges_of_bits_cons (b : Bool) (bits : List Bool) :
    edges_of_bits (b :: bits) = bit_edges b ++ edges_of_bits bits := by
  simp [edges_of_bits]

theorem edges_of_bits_append (xs ys : List Bool) :
    edges_of_bits (xs ++ ys) = edges_of_bits xs ++ edges_of_bits ys := by
  simp [edges_of_bits]

theorem feed_bits_idle_zeros (n : Nat) (sd : CardData) (pc : Nat) :
    ∃ pc1, feed ⟨sd, false, 0, false, pc⟩ (edges_of_bits (List.replicate n false))
      = ⟨shift_bits sd (List.replicate n false), false, 0, false, pc1⟩ := by
  induction n generalizing sd pc with
  | zero => exact ⟨pc, rfl⟩
  | succ n ih =>
    obtain ⟨pc1, h⟩ := ih (DecoderHID37.shift_in sd false) 4096
    refine ⟨pc1, ?_⟩
    rw [List.replicate_succ, edges_of_bits_cons, feed_append, feed_bit_idle_false, h]
    rfl

theorem feed_bits_pending (bits : List Bool) (b : Bool) (sd : CardData) (pc : Nat) :
    ∃ pc1, feed ⟨sd, b, if b then 4 else 5, false, pc⟩ (edges_of_bits bits)
      = ⟨shift_bits sd ((b :: bits).dropLast), bits.getLastD b,
          if bits.getLastD b then 4 else 5, false, pc1⟩ := by
  induction bits generalizing b sd pc with
  | nil => exact ⟨pc, rfl⟩
  | cons c rest ih =>
    obtain ⟨pc1, h⟩ := ih c (DecoderHID37.shift_in sd b) (if c then 5120 else 4096)
    refine ⟨pc1, ?_⟩
    have e1 : (c :: rest).getLastD b = rest.getLastD c := by
      cases rest <;> rfl
    have e2 : (b :: c :: rest).dropLast = b :: (c :: rest).dropLast := rfl
    rw [edges_of_bits_cons, feed_append, feed_bit_pending, h, e1, e2]
    rfl

/-! ## Feeding an encoded frame -/

theorem raw_bits_add (cd : CardData) (s a b : Nat) :
    raw_bits cd s (a + b) = raw_bits cd s a ++ raw_bits cd (s + a) b := by
  simp only [raw_bits, List.range_add, List.map_append, List.map_map, Function.comp_def,
    Nat.add_assoc]

theorem raw_bits_succ (cd : CardData) (s n : Nat) :
    raw_bits cd s (n + 1) = raw_bits cd s n ++ [rawBit cd (s + n)] := by
  simp only [raw_bits, List.range_succ, List.map_append, List.map_cons, List.map_nil]

theorem raw_bits_getD (cd : CardData) (s n k : Nat) (hk : k < n) :
    (raw_bits cd s n).getD k false = rawBit cd (s + k) := by
  have hl : k < (raw_bits cd s n).length := by simp [raw_bits, hk]
  rw [List.getD_eq_getElem _ _ hl]
  simp [raw_bits]

theorem frame_edges_eq (cd : CardData) : frame_edges cd = edges_of_bits (raw_bits cd 0 128) := by
  simp only [frame_edges, edges_of_bits, raw_bits, List.map_map, Function.comp_def,
    Nat.zero_add]

theorem raw_bits_encode_split (payload : List Nat) :
    raw_bits (encode_card_data payload) 0 128
      = List.replicate 13 false ++ (true :: raw_bits (encode_card_data payload) 14 114) := by
  have h : (128 : Nat) = 14 + 114 := rfl
  rw [h, raw_bits_add, raw_bits_encode_fixed _ _ _ (by norm_num)]
  have e : raw_bits fixed_card_data 0 14 = List.replicate 13 false ++ [true] := by decide
  rw [e, List.append_assoc]
  rfl

theorem feed_encode (payload : List Nat) (sd : CardData) (pc : Nat) :
    ∃ pc1, feed ⟨sd, false, 0, false, pc⟩ (frame_edges (encode_card_data payload))
      = ⟨shift_bits sd (raw_bits (encode_card_data payload) 0 127),
          rawBit (encode_card_data payload) 127,
          if rawBit (encode_card_data payload) 127 then 4 else 5, false, pc1⟩ := by
  obtain ⟨pc1, h1⟩ := feed_bits_idle_zeros 13 sd pc
  obtain ⟨pc2, h2⟩ := feed_bits_pending (raw_bits (encode_card_data payload) 14 114) true
    (shift_bits sd (List.replicate 13 false)) 5120
  refine ⟨pc2, ?_⟩
  have hlast : (raw_bits (encode_card_data payload) 14 114).getLastD true
      = rawBit (encode_card_data payload) 127 := by
    have h : (114 : Nat) = 113 + 1 := rfl
    rw [h, raw_bits_succ, List.getLastD_concat]
  have hdrop : List.replicate 13 false
        ++ (true :: raw_bits (encode_card_data payload) 14 114).dropLast
      = raw_bits (encode_card_data payload) 0 127 := by
    have hne : (true :: raw_bits (encode_card_data payload) 14 114) ≠ [] := by simp
    rw [← List.dropLast_append_of_ne_nil (List.replicate 13 false) hne,
      ← raw_bits_encode_split]
    have h : (128 : Nat) = 127 + 1 := rfl
    rw [h, raw_bits_succ, List.dropLast_concat]
  rw [frame_edges_eq, raw_bits_encode_split, edges_of_bits_append, feed_append, h1,
    edges_of_bits_cons, feed_append, feed_bit_idle_true]
  have h3 : (⟨shift_bits sd (List.replicate 13 false), true, 4, false, 5120⟩ : DecoderHID37)
      = ⟨shift_bits sd (List.replicate 13 false), true, if true then 4 else 5, false,
          5120⟩ := rfl
  rw [h3, h2, hlast, ← shift_bits_append, hdrop]

/-- C3, as amended: for every payload, feeding a freshly reset decoder whose FrameBuffer
is all zero the synthetic edge sequence of the encoded frame shifts the frame into the
FrameBuffer one bit short: raw bit `p + 1` of the FrameBuffer is raw bit `p` of the frame
for `p` in 0..126, raw bit 0 is 0, and the last frame bit is still pending in the run
state (a run of its length, counted 4 when long and 5 when short). -/
theorem pipeline_frame_buffer (payload : List Nat) (last : Bool) (count : Nat)
    (ready : Bool) (pc : Nat) :
    ∃ f, encode payload 5 16 = some f
      ∧ (∀ p, p < 127 →
          rawBit (feed (DecoderHID37.reset_state ⟨⟨0, 0, 0, 0⟩, last, count, ready, pc⟩)
            (frame_edges f)).stored_data (p + 1) = rawBit f p)
      ∧ rawBit (feed (DecoderHID37.reset_state ⟨⟨0, 0, 0, 0⟩, last, count, ready, pc⟩)
          (frame_edges f)).stored_data 0 = false
      ∧ (feed (DecoderHID37.reset_state ⟨⟨0, 0, 0, 0⟩, last, count, ready, pc⟩)
          (frame_edges f)).last_pulse_length = rawBit f 127
      ∧ (feed (DecoderHID37.reset_state ⟨⟨0, 0, 0, 0⟩, last, count, ready, pc⟩)
          (frame_edges f)).pulse_count = if rawBit f 127 then 4 else 5 := by
  obtain ⟨pc1, h⟩ := feed_encode payload ⟨0, 0, 0, 0⟩ 0
  have hr : DecoderHID37.reset_state ⟨⟨0, 0, 0, 0⟩, last, count, ready, pc⟩
      = ⟨⟨0, 0, 0, 0⟩, false, 0, false, 0⟩ := rfl
  have hlen : (raw_bits (encode_card_data payload) 0 127).length = 127 := by simp [raw_bits]
  refine ⟨encode_card_data payload, encode_eq _, ?_, ?_, ?_, ?_⟩
  · intro p hp
    rw [hr, h]
    show rawBit (shift_bits _ _) (p + 1) = _
    rw [rawBit_shift_bits _ _ _ (by omega) (by omega), hlen, if_pos (by omega)]
    have e : p + 1 + 127 - 128 = p := by omega
    rw [e, raw_bits_getD _ _ _ _ hp, Nat.zero_add]
  · rw [hr, h]
    show rawBit (shift_bits _ _) 0 = _
    rw [rawBit_shift_bits _ _ _ (by omega) (by omega), hlen, if_neg (by omega)]
    rfl
  · rw [hr, h]
  · rw [hr, h]

/-- C3, counterexample: for the payload of five zero bytes and a decoder that starts from
an all-zero FrameBuffer, after the synthetic edge sequence of the encoded frame the ready
flag is clear and `read` returns false without touching the output buffer. -/
theorem pipeline_not_ready :
    ∃ f, encode [0, 0, 0, 0, 0] 5 16 = some f
      ∧ (feed (DecoderHID37.reset_state ⟨⟨0, 0, 0, 0⟩, false, 0, false, 0⟩)
          (frame_edges f)).ready = false
      ∧ (feed (DecoderHID37.reset_state ⟨⟨0, 0, 0, 0⟩, false, 0, false, 0⟩)
          (frame_edges f)).read [0, 0, 0, 0, 0] 5
        = some (false, [0, 0, 0, 0, 0],
            feed (DecoderHID37.reset_state ⟨⟨0, 0, 0, 0⟩, false, 0, false, 0⟩)
              (frame_edges f)) := by
  have h : ∀ f, (feed (DecoderHID37.reset_state ⟨⟨0, 0, 0, 0⟩, false, 0, false, 0⟩)
      (frame_edges f)).ready = false := fun f => feed_ready _ _ rfl
  refine ⟨encode_card_data [0, 0, 0, 0, 0], encode_eq _, h _, ?_⟩
  simp [DecoderHID37.read, h]

/-! ## `read` and the entry of `process_front` -/

/-- C11, as amended: for every decoder state whose ready flag is set and every declared
output size of at least 5, `read` does not fail, returns true, clears the ready flag,
leaves the FrameBuffer, the run state and the pending width unchanged, and writes the five
bytes of the codec's `decode` of the FrameBuffer, which does not fail either, to the start
of the output buffer. -/
theorem read_ready (d : DecoderHID37) (data : List Nat) (data_size : Nat)
    (hr : d.ready = true) (hs : 5 ≤ data_size) :
    decode d.stored_data 16 data_size = some (decode_data (decode_result d.stored_data))
      ∧ d.read data data_size
          = some (true, decode_data (decode_result d.stored_data) ++ data.drop 5,
              ⟨d.stored_data, d.last_pulse_length, d.pulse_count, false, d.pulse_clocks⟩) := by
  have h5 : ¬ data_size < 5 := by omega
  have h4 : ¬ data_size < 4 := by omega
  have hd : decode d.stored_data (4 * 4) data_size
      = some (decode_data (decode_result d.stored_data)) := by
    simp [decode, get_decoded_data_size, get_encoded_data_size, HID10304Count, h5]
  refine ⟨hd, ?_⟩
  simp only [DecoderHID37.read, h4, hr, if_true, if_false, hd]
  rfl

theorem read_ready_witness :
    ((⟨⟨0x00075556, 0x55559555, 0x55555555, 0x55555558⟩, true, 4, true, 5120⟩ :
        DecoderHID37).ready = true ∧ 5 ≤ 5)
      ∧ decode (⟨⟨0x00075556, 0x55559555, 0x55555555, 0x55555558⟩, true, 4, true, 5120⟩ :
            DecoderHID37).stored_data 16 5
          = some (decode_data (decode_result
              (⟨⟨0x00075556, 0x55559555, 0x55555555, 0x55555558⟩, true, 4, true, 5120⟩ :
                DecoderHID37).stored_data))
      ∧ (⟨⟨0x00075556, 0x55559555, 0x55555555, 0x55555558⟩, true, 4, true, 5120⟩ :
            DecoderHID37).read [9, 9, 9, 9, 9] 5
          = some (true,
              decode_data (decode_result
                (⟨⟨0x00075556, 0x55559555, 0x55555555, 0x55555558⟩, true, 4, true, 5120⟩ :
                  DecoderHID37).stored_data) ++ [9, 9, 9, 9, 9].drop 5,
              ⟨⟨0x00075556, 0x55559555, 0x55555555, 0x55555558⟩, true, 4, false, 5120⟩) :=
  ⟨⟨rfl, by decide⟩,
    read_ready ⟨⟨0x00075556, 0x55559555, 0x55555555, 0x55555558⟩, true, 4, true, 5120⟩
      [9, 9, 9, 9, 9] 5 rfl (by decide)⟩

/-- C11, counterexample: with the ready flag set and a declared output size of 4, the
`furi_assert` of `read` holds but the `furi_check` of `decode` (size at least 5) fails, so
`read` fails. -/
theorem read_ready_size_four_fails :
    (⟨⟨0, 0, 0, 0⟩, false, 0, true, 0⟩ : DecoderHID37).read [0, 0, 0, 0] 4 = none
      ∧ decode ⟨0, 0, 0, 0⟩ 16 4 = none := by
  decide

/-- C12: for every decoder state whose ready flag is clear and every size of at least 4,
`read` returns false and leaves the decoder and the output buffer as they were; so do any
number of repeated reads. -/
theorem read_not_ready (d : DecoderHID37) (data : List Nat) (data_size : Nat)
    (hr : d.ready = false) (hs : 4 ≤ data_size) :
    d.read data data_size = some (false, data, d)
      ∧ ∀ k, reads d data data_size k = some (List.replicate k false, data, d) := by
  have h4 : ¬ data_size < 4 := by omega
  have h1 : d.read data data_size = some (false, data, d) := by
    simp [DecoderHID37.read, h4, hr]
  refine ⟨h1, ?_⟩
  intro k
  induction k with
  | zero => rfl
  | succ k ih => simp only [reads, h1, ih, List.replicate_succ]

theorem read_not_ready_witness :
    ((⟨⟨1, 2, 3, 4⟩, true, 3, false, 77⟩ : DecoderHID37).ready = false ∧ 4 ≤ 4)
      ∧ (⟨⟨1, 2, 3, 4⟩, true, 3, false, 77⟩ : DecoderHID37).read [5, 6, 7, 8] 4
          = some (false, [5, 6, 7, 8], ⟨⟨1, 2, 3, 4⟩, true, 3, false, 77⟩)
      ∧ ∀ k, reads ⟨⟨1, 2, 3, 4⟩, true, 3, false, 77⟩ [5, 6, 7, 8] 4 k
          = some (List.replicate k false, [5, 6, 7, 8], ⟨⟨1, 2, 3, 4⟩, true, 3, false, 77⟩) :=
  ⟨⟨rfl, by decide⟩,
    read_not_ready ⟨⟨1, 2, 3, 4⟩, true, 3, false, 77⟩ [5, 6, 7, 8] 4 rfl (by decide)⟩

/-- C13: for every decoder state whose ready flag is set and every edge event,
`process_front` returns the state unchanged. -/
theorem process_front_backpressure (d : DecoderHID37) (rising_edge : Bool) (edge_clocks : Nat)
    (hr : d.ready = true) : d.process_front rising_edge edge_clocks = d := by
  simp only [DecoderHID37.process_front, hr, if_true]

theorem process_front_backpressure_witness :
    (⟨⟨1, 2, 3, 4⟩, true, 4, true, 2000⟩ : DecoderHID37).ready = true
      ∧ (⟨⟨1, 2, 3, 4⟩, true, 4, true, 2000⟩ : DecoderHID37).process_front false 3120
          = ⟨⟨1, 2, 3, 4⟩, true, 4, true, 2000⟩ :=
  ⟨rfl, process_front_backpressure ⟨⟨1, 2, 3, 4⟩, true, 4, true, 2000⟩ false 3120 rfl⟩

/-- C14: with the ready flag clear, a falling edge whose total width (pending width plus
duration, as a 32-bit sum) is not strictly between `min_clocks` = 2816 and
`max_clocks` = 6400 leaves `last_pulse_length`, `pulse_count`, the FrameBuffer and the
ready flag unchanged. -/
theorem process_front_noise (d : DecoderHID37) (edge_clocks : Nat)
    (hr : d.ready = false)
    (hw : ¬ (2816 < (d.pulse_clocks + edge_clocks) % 2 ^ 32
      ∧ (d.pulse_clocks + edge_clocks) % 2 ^ 32 < 6400)) :
    min_clocks = 2816 ∧ max_clocks = 6400
      ∧ (d.process_front false edge_clocks).last_pulse_length = d.last_pulse_length
      ∧ (d.process_front false edge_clocks).pulse_count = d.pulse_count
      ∧ (d.process_front false edge_clocks).stored_data = d.stored_data
      ∧ (d.process_front false edge_clocks).ready = d.ready := by
  have e1 : min_clocks = 2816 := by decide
  have e2 : max_clocks = 6400 := by decide
  have h : d.process_front false edge_clocks
      = { d with pulse_clocks := (d.pulse_clocks + edge_clocks) % 2 ^ 32 } := by
    simp only [DecoderHID37.process_front, hr, e1, e2]
    simp only [Bool.false_eq_true, if_false, gt_iff_lt, hw]
  rw [h]
  exact ⟨e1, e2, rfl, rfl, rfl, rfl⟩

theorem process_front_noise_witness :
    ((⟨⟨1, 2, 3, 4⟩, true, 3, false, 6400⟩ : DecoderHID37).ready = false
      ∧ ¬ (2816 < ((⟨⟨1, 2, 3, 4⟩, true, 3, false, 6400⟩ : DecoderHID37).pulse_clocks + 1)
            % 2 ^ 32
          ∧ ((⟨⟨1, 2, 3, 4⟩, true, 3, false, 6400⟩ : DecoderHID37).pulse_clocks + 1)
            % 2 ^ 32 < 6400))
      ∧ min_clocks = 2816 ∧ max_clocks = 6400
      ∧ ((⟨⟨1, 2, 3, 4⟩, true, 3, false, 6400⟩ : DecoderHID37).process_front false
          1).last_pulse_length = true
      ∧ ((⟨⟨1, 2, 3, 4⟩, true, 3, false, 6400⟩ : DecoderHID37).process_front false
          1).pulse_count = 3
      ∧ ((⟨⟨1, 2, 3, 4⟩, true, 3, false, 6400⟩ : DecoderHID37).process_front false
          1).stored_data = ⟨1, 2, 3, 4⟩
      ∧ ((⟨⟨1, 2, 3, 4⟩, true, 3, false, 6400⟩ : DecoderHID37).process_front false
          1).ready = false :=
  ⟨⟨rfl, by decide⟩,
    process_front_noise ⟨⟨1, 2, 3, 4⟩, true, 3, false, 6400⟩ 1 rfl (by decide)⟩

/-! ## The bit-recovery step -/

theorem store_data_fields (d : DecoderHID37) (b : Bool) :
    (d.store_data b).stored_data = DecoderHID37.shift_in d.stored_data b
      ∧ (d.store_data b).last_pulse_length = d.last_pulse_length
      ∧ (d.store_data b).pulse_count = d.pulse_count
      ∧ (d.store_data b).pulse_clocks = d.pulse_clocks := by
  by_cases h : can_be_decoded (DecoderHID37.shift_in d.stored_data b) (4 * 4) = some true
  · simp only [DecoderHID37.store_data, h, if_true, and_self]
  · simp only [DecoderHID37.store_data, h, if_false, and_self]

/-- C15: with the ready flag clear, a falling edge whose total width `w` satisfies
`2816 < w < 6400` is classed long when `w >= 4608` (`mid_clocks`) and short otherwise, and
`process_front` then follows the bit-recovery rule: the FrameBuffer takes the committed
bit, if any (at most one shift), and `last_pulse_length` and `pulse_count` become the run
state the rule gives.  The new count of a continued run is the counter after
`pulse_count++`: one more than before, except at 255, the top of the 8-bit counter, where
it is 0 (and nothing is committed). -/
theorem process_front_bit_recovery (d : DecoderHID37) (edge_clocks : Nat)
    (hr : d.ready = false)
    (hlo : 2816 < (d.pulse_clocks + edge_clocks) % 2 ^ 32)
    (hhi : (d.pulse_clocks + edge_clocks) % 2 ^ 32 < 6400) :
    mid_clocks = 4608
      ∧ pulse_class ((d.pulse_clocks + edge_clocks) % 2 ^ 32)
          = decide (4608 ≤ (d.pulse_clocks + edge_clocks) % 2 ^ 32)
      ∧ (d.process_front false edge_clocks).stored_data
          = commit d.stored_data
              (bit_recovery_ref (pulse_class ((d.pulse_clocks + edge_clocks) % 2 ^ 32))
                d.last_pulse_length d.pulse_count).1
      ∧ (d.process_front false edge_clocks).last_pulse_length
          = (bit_recovery_ref (pulse_class ((d.pulse_clocks + edge_clocks) % 2 ^ 32))
              d.last_pulse_length d.pulse_count).2.1
      ∧ (d.process_front false edge_clocks).pulse_count
          = (bit_recovery_ref (pulse_class ((d.pulse_clocks + edge_clocks) % 2 ^ 32))
              d.last_pulse_length d.pulse_count).2.2
      ∧ (d.pulse_count < 255 → incremented d.pulse_count = d.pulse_count + 1)
      ∧ incremented 255 = 0 := by
  have e1 : min_clocks = 2816 := by decide
  have e2 : max_clocks = 6400 := by decide
  have e3 : mid_clocks = 4608 := by decide
  have hinc : d.pulse_count < 255 → incremented d.pulse_count = d.pulse_count + 1 := by
    intro hlt
    have h256 : 2 ^ pulse_count_bits = 256 := by decide
    rw [incremented, h256]
    omega
  suffices hmain : (d.process_front false edge_clocks).stored_data
          = commit d.stored_data
              (bit_recovery_ref (pulse_class ((d.pulse_clocks + edge_clocks) % 2 ^ 32))
                d.last_pulse_length d.pulse_count).1
      ∧ (d.process_front false edge_clocks).last_pulse_length
          = (bit_recovery_ref (pulse_class ((d.pulse_clocks + edge_clocks) % 2 ^ 32))
              d.last_pulse_length d.pulse_count).2.1
      ∧ (d.process_front false edge_clocks).pulse_count
          = (bit_recovery_ref (pulse_class ((d.pulse_clocks + edge_clocks) % 2 ^ 32))
              d.last_pulse_length d.pulse_count).2.2 from
    ⟨e3, by rw [pulse_class, e3], hmain.1, hmain.2.1, hmain.2.2, hinc, by decide⟩
  clear hinc
  generalize hw : (d.pulse_clocks + edge_clocks) % 2 ^ 32 = w at hlo hhi ⊢
  have hrange : w > 2816 ∧ w < 6400 := ⟨hlo, hhi⟩
  obtain ⟨sd, last, count, ready, pc⟩ := d
  simp only at hr hw
  subst hr
  cases last <;> by_cases hc : 4608 ≤ w
  all_goals
    simp only [DecoderHID37.process_front, hw, e1, e2, e3, hrange, pulse_class,
      bit_recovery_ref, incremented, hc, Bool.false_eq_true, if_false, if_true, and_self,
      decide_True, decide_False, true_and, false_and, Bool.true_eq_false, ge_iff_le,
      gt_iff_lt]
    split_ifs <;>
      simp only [store_data_fields, commit, and_self]

theorem process_front_bit_recovery_witness :
    ((⟨⟨1, 2, 3, 4⟩, true, 4, false, 2560⟩ : DecoderHID37).ready = false
      ∧ 2816 < ((⟨⟨1, 2, 3, 4⟩, true, 4, false, 2560⟩ : DecoderHID37).pulse_clocks + 2560)
          % 2 ^ 32
      ∧ ((⟨⟨1, 2, 3, 4⟩, true, 4, false, 2560⟩ : DecoderHID37).pulse_clocks + 2560)
          % 2 ^ 32 < 6400)
      ∧ mid_clocks = 4608
      ∧ pulse_class (((⟨⟨1, 2, 3, 4⟩, true, 4, false, 2560⟩ :
            DecoderHID37).pulse_clocks + 2560) % 2 ^ 32)
          = decide (4608 ≤ ((⟨⟨1, 2, 3, 4⟩, true, 4, false, 2560⟩ :
            DecoderHID37).pulse_clocks + 2560) % 2 ^ 32)
      ∧ ((⟨⟨1, 2, 3, 4⟩, true, 4, false, 2560⟩ : DecoderHID37).process_front false
            2560).stored_data
          = commit (⟨⟨1, 2, 3, 4⟩, true, 4, false, 2560⟩ : DecoderHID37).stored_data
              (bit_recovery_ref (pulse_class (((⟨⟨1, 2, 3, 4⟩, true, 4, false, 2560⟩ :
                DecoderHID37).pulse_clocks + 2560) % 2 ^ 32))
                (⟨⟨1, 2, 3, 4⟩, true, 4, false, 2560⟩ : DecoderHID37).last_pulse_length
                (⟨⟨1, 2, 3, 4⟩, true, 4, false, 2560⟩ : DecoderHID37).pulse_count).1
      ∧ ((⟨⟨1, 2, 3, 4⟩, true, 4, false, 2560⟩ : DecoderHID37).process_front false
            2560).last_pulse_length
          = (bit_recovery_ref (pulse_class (((⟨⟨1, 2, 3, 4⟩, true, 4, false, 2560⟩ :
                DecoderHID37).pulse_clocks + 2560) % 2 ^ 32))
                (⟨⟨1, 2, 3, 4⟩, true, 4, false, 2560⟩ : DecoderHID37).last_pulse_length
                (⟨⟨1, 2, 3, 4⟩, true, 4, false, 2560⟩ : DecoderHID37).pulse_count).2.1
      ∧ ((⟨⟨1, 2, 3, 4⟩, true, 4, false, 2560⟩ : DecoderHID37).process_front false
            2560).pulse_count
          = (bit_recovery_ref (pulse_class (((⟨⟨1, 2, 3, 4⟩, true, 4, false, 2560⟩ :
                DecoderHID37).pulse_clocks + 2560) % 2 ^ 32))
                (⟨⟨1, 2, 3, 4⟩, true, 4, false, 2560⟩ : DecoderHID37).last_pulse_length
                (⟨⟨1, 2, 3, 4⟩, true, 4, false, 2560⟩ : DecoderHID37).pulse_count).2.2
      ∧ ((⟨⟨1, 2, 3, 4⟩, true, 4, false, 2560⟩ : DecoderHID37).pulse_count < 255 →
          incremented (⟨⟨1, 2, 3, 4⟩, true, 4, false, 2560⟩ : DecoderHID37).pulse_count
            = (⟨⟨1, 2, 3, 4⟩, true, 4, false, 2560⟩ : DecoderHID37).pulse_count + 1)
      ∧ incremented 255 = 0 :=
  ⟨⟨rfl, by decide, by decide⟩,
    process_front_bit_recovery ⟨⟨1, 2, 3, 4⟩, true, 4, false, 2560⟩ 2560 rfl (by decide)
      (by decide)⟩

/-! ## The shift register as a 128-bit number -/

theorem shift_or_bit (a c : Nat) (hc : c < 2) : (a <<< 1) ||| c = 2 * a + c := by
  rw [Nat.shiftLeft_eq, or_eq_add_of_lt a c 1 (by omega)]; omega

theorem frame_number_shift_in (s : CardData) (b : Bool) (h : s.WF) :
    frame_number (DecoderHID37.shift_in s b) = (2 * frame_number s + b.toNat) % 2 ^ 128
      ∧ (DecoderHID37.shift_in s b).WF := by
  obtain ⟨h0, h1, h2, h3⟩ := h
  have hb : b.toNat < 2 := by cases b <;> simp
  have d1 : (s.w1 >>> 31) &&& 1 = s.w1 / 2 ^ 31 % 2 := by
    rw [Nat.and_one_is_mod, Nat.shiftRight_eq_div_pow]
  have d2 : (s.w2 >>> 31) &&& 1 = s.w2 / 2 ^ 31 % 2 := by
    rw [Nat.and_one_is_mod, Nat.shiftRight_eq_div_pow]
  have d3 : (s.w3 >>> 31) &&& 1 = s.w3 / 2 ^ 31 % 2 := by
    rw [Nat.and_one_is_mod, Nat.shiftRight_eq_div_pow]
  have f0 := shift_or_bit s.w0 (s.w1 / 2 ^ 31 % 2) (Nat.mod_lt _ (by norm_num))
  have f1 := shift_or_bit s.w1 (s.w2 / 2 ^ 31 % 2) (Nat.mod_lt _ (by norm_num))
  have f2 := shift_or_bit s.w2 (s.w3 / 2 ^ 31 % 2) (Nat.mod_lt _ (by norm_num))
  have f3 := shift_or_bit s.w3 b.toNat hb
  simp only [DecoderHID37.shift_in, frame_number, CardData.WF, d1, d2, d3, f0, f1, f2, f3]
  refine ⟨?_, Nat.mod_lt _ (by norm_num), Nat.mod_lt _ (by norm_num),
    Nat.mod_lt _ (by norm_num), Nat.mod_lt _ (by norm_num)⟩
  omega

theorem foldl_store_data_stored (bits : List Bool) (d : DecoderHID37) :
    (bits.foldl DecoderHID37.store_data d).stored_data = shift_bits d.stored_data bits := by
  induction bits generalizing d with
  | nil => rfl
  | cons b bs ih =>
    rw [List.foldl_cons, ih, (store_data_fields d b).1]
    rfl

theorem rawBit_shift_bits_any (bits : List Bool) (cd : CardData) (q : Nat) (hq : q < 128) :
    rawBit (shift_bits cd bits) q
      = if 128 ≤ q + bits.length then bits.getD (q + bits.length - 128) false
        else rawBit cd (q + bits.length) := by
  induction bits using List.reverseRecOn generalizing q with
  | nil => simp [shift_bits]; omega
  | append_singleton xs b ih =>
    rw [shift_bits_append]
    have hl : (xs ++ [b]).length = xs.length + 1 := by simp
    rw [hl]
    have e : shift_bits (shift_bits cd xs) [b]
        = DecoderHID37.shift_in (shift_bits cd xs) b := rfl
    rw [e, rawBit_shift_in _ _ _ hq]
    by_cases h127 : q = 127
    · subst h127
      have : 128 ≤ 127 + (xs.length + 1) := by omega
      rw [if_pos rfl, if_pos this]
      have e2 : 127 + (xs.length + 1) - 128 = xs.length := by omega
      rw [e2, List.getD_append_right _ _ _ _ (le_refl _)]
      simp
    · rw [if_neg h127, ih (q + 1) (by omega)]
      by_cases hc : 128 ≤ q + 1 + xs.length
      · have hc2 : 128 ≤ q + (xs.length + 1) := by omega
        rw [if_pos hc, if_pos hc2]
        have e2 : q + (xs.length + 1) - 128 = q + 1 + xs.length - 128 := by omega
        rw [e2, List.getD_append _ _ _ _ (by omega)]
      · have hc2 : ¬ 128 ≤ q + (xs.length + 1) := by omega
        rw [if_neg hc, if_neg hc2]
        congr 1
        omega

/-- C16: for a FrameBuffer of four 32-bit words, after `store_data(b)` the FrameBuffer read
as a 128-bit number is `(2 * N_old + b) mod 2 ^ 128` (and its words are again 32-bit);
after any sequence of at least 128 `store_data` calls raw bit `q` of the FrameBuffer (bit
`31 - q % 32` of word `q / 32`) is the bit committed `128 - q` calls before the end, so
the FrameBuffer holds exactly the last 128 bits, oldest in bit 31 of word 0 and newest in
bit 0 of word 3. -/
theorem store_data_shift_register (d : DecoderHID37) (h : d.stored_data.WF) :
    (∀ b : Bool,
        frame_number (d.store_data b).stored_data
            = (2 * frame_number d.stored_data + b.toNat) % 2 ^ 128
          ∧ (d.store_data b).stored_data.WF)
      ∧ ∀ bits : List Bool, 128 ≤ bits.length → ∀ q, q < 128 →
          rawBit (bits.foldl DecoderHID37.store_data d).stored_data q
            = bits.getD (bits.length - 128 + q) false := by
  refine ⟨?_, ?_⟩
  · intro b
    rw [(store_data_fields d b).1]
    exact frame_number_shift_in _ b h
  · intro bits hl q hq
    rw [foldl_store_data_stored, rawBit_shift_bits_any _ _ _ hq, if_pos (by omega)]
    congr 1
    omega

theorem store_data_shift_register_witness :
    (⟨⟨0xFFFFFFFF, 0x80000000, 0, 0x80000001⟩, false, 0, false, 0⟩ :
        DecoderHID37).stored_data.WF
      ∧ (∀ b : Bool,
        frame_number ((⟨⟨0xFFFFFFFF, 0x80000000, 0, 0x80000001⟩, false, 0, false, 0⟩ :
            DecoderHID37).store_data b).stored_data
            = (2 * frame_number (⟨⟨0xFFFFFFFF, 0x80000000, 0, 0x80000001⟩, false, 0, false,
                0⟩ : DecoderHID37).stored_data + b.toNat) % 2 ^ 128
          ∧ ((⟨⟨0xFFFFFFFF, 0x80000000, 0, 0x80000001⟩, false, 0, false, 0⟩ :
            DecoderHID37).store_data b).stored_data.WF)
      ∧ ∀ bits : List Bool, 128 ≤ bits.length → ∀ q, q < 128 →
          rawBit (bits.foldl DecoderHID37.store_data
              ⟨⟨0xFFFFFFFF, 0x80000000, 0, 0x80000001⟩, false, 0, false, 0⟩).stored_data q
            = bits.getD (bits.length - 128 + q) false :=
  ⟨by decide,
    store_data_shift_register ⟨⟨0xFFFFFFFF, 0x80000000, 0, 0x80000001⟩, false, 0, false, 0⟩
      (by decide)⟩

/-! ## The validator never accepts; the ready flag is never set -/

/-- C17: `can_be_decoded` returns false for every 16-byte frame: its first test fixes bits
13..7 of word 0 to 0x1D and its second test fixes them to 0x2A, so the two never hold
together. -/
theorem can_be_decoded_always_false (w0 w1 w2 w3 : Nat) :
    can_be_decoded ⟨w0, w1, w2, w3⟩ 16 = some false
      ∧ (((w0 >>> 7) &&& 0xFF) = 0x1D → (w0 >>> 7) % 128 = 0x1D)
      ∧ ((w0 &&& 0x3FFF) = 0x1556 → (w0 >>> 7) % 128 = 0x2A)
      ∧ ¬ (((w0 >>> 7) &&& 0xFF) = 0x1D ∧ (w0 &&& 0x3FFF) = 0x1556) := by
  have hFF : (0xFF : Nat) = 2 ^ 8 - 1 := by norm_num
  have h3F : (0x3FFF : Nat) = 2 ^ 14 - 1 := by norm_num
  refine ⟨can_be_decoded_eq_false _, ?_, ?_, can_be_decoded_tests_exclusive w0⟩
  · intro h
    rw [hFF, Nat.and_pow_two_sub_one_eq_mod] at h
    omega
  · intro h
    rw [h3F, Nat.and_pow_two_sub_one_eq_mod] at h
    rw [Nat.shiftRight_eq_div_pow]
    omega

theorem call_ready (d : DecoderHID37) (c : Call) (h : d.ready = false) :
    (∀ d1, call d c = some d1 → d1.ready = false)
      ∧ (c.ok → ∃ d1, call d c = some d1) := by
  cases c with
  | process_front rising_edge edge_clocks =>
    refine ⟨?_, fun _ => ⟨_, rfl⟩⟩
    intro d1 h1
    simp only [call, Option.some.injEq] at h1
    rw [← h1]
    exact process_front_ready d _ _ h
  | read data data_size =>
    by_cases h4 : data_size < 4
    · refine ⟨?_, ?_⟩
      · intro d1 h1
        simp [call, DecoderHID37.read, h4] at h1
      · intro hok
        simp only [Call.ok] at hok
        omega
    · have hrd : d.read data data_size = some (false, data, d) := by
        simp [DecoderHID37.read, h4, h]
      refine ⟨?_, fun _ => ⟨d, by simp only [call, hrd]⟩⟩
      intro d1 h1
      simp only [call, hrd, Option.some.injEq] at h1
      rw [← h1]
      exact h
  | reset_state =>
    refine ⟨?_, fun _ => ⟨_, rfl⟩⟩
    intro d1 h1
    simp only [call, Option.some.injEq] at h1
    rw [← h1]
    rfl

theorem calls_ready (cs : List Call) (d : DecoderHID37) (h : d.ready = false) :
    (∀ d1, calls d cs = some d1 → d1.ready = false)
      ∧ ((∀ c, c ∈ cs → c.ok) → ∃ d1, calls d cs = some d1) := by
  induction cs generalizing d with
  | nil =>
    refine ⟨?_, fun _ => ⟨d, rfl⟩⟩
    intro d1 h1
    simp only [calls, Option.some.injEq] at h1
    rw [← h1]
    exact h
  | cons c cs ih =>
    obtain ⟨hc1, hc2⟩ := call_ready d c h
    refine ⟨?_, ?_⟩
    · intro d1 h1
      cases hcall : call d c with
      | none => simp [calls, hcall] at h1
      | some d2 =>
        simp only [calls, hcall] at h1
        exact (ih d2 (hc1 d2 hcall)).1 d1 h1
    · intro hok
      obtain ⟨d2, hd2⟩ := hc2 (hok c (List.mem_cons_self _ _))
      obtain ⟨d3, hd3⟩ := (ih d2 (hc1 d2 hd2)).2
        (fun c1 hc => hok c1 (List.mem_cons_of_mem _ hc))
      exact ⟨d3, by simp only [calls, hd2, hd3]⟩

/-- C18: starting from the state left by `reset_state` (any FrameBuffer), every sequence of
`process_front`, `read` and `reset_state` calls whose reads respect the size contract runs
to a state, the ready flag of every state so reached is clear, and `read` then returns
false and changes nothing. -/
theorem ready_never_set (d0 : DecoderHID37) (cs : List Call) :
    (∀ d, calls d0.reset_state cs = some d →
        d.ready = false
          ∧ ∀ (data : List Nat) (data_size : Nat), 4 ≤ data_size →
              d.read data data_size = some (false, data, d))
      ∧ ((∀ c, c ∈ cs → c.ok) → ∃ d, calls d0.reset_state cs = some d) := by
  obtain ⟨h1, h2⟩ := calls_ready cs d0.reset_state rfl
  refine ⟨?_, h2⟩
  intro d hd
  have hr := h1 d hd
  refine ⟨hr, ?_⟩
  intro data data_size hs
  have h4 : ¬ data_size < 4 := by omega
  simp [DecoderHID37.read, h4, hr]

/-! ## The run counter -/

theorem process_front_count (d : DecoderHID37) (rising_edge : Bool) (edge_clocks : Nat)
    (h : (d.last_pulse_length = true → d.pulse_count ≤ 4)
      ∧ (d.last_pulse_length = false → d.pulse_count ≤ 5)) :
    ((d.process_front rising_edge edge_clocks).last_pulse_length = true →
        (d.process_front rising_edge edge_clocks).pulse_count ≤ 4)
      ∧ ((d.process_front rising_edge edge_clocks).last_pulse_length = false →
        (d.process_front rising_edge edge_clocks).pulse_count ≤ 5) := by
  obtain ⟨sd, last, count, ready, pc⟩ := d
  simp only at h
  unfold DecoderHID37.process_front
  simp only
  split_ifs <;> simp only [store_data_fields] <;> first
    | exact h
    | (constructor <;> intro hl <;> simp_all)

theorem feed_count (events : List (Bool × Nat)) (d : DecoderHID37)
    (h : (d.last_pulse_length = true → d.pulse_count ≤ 4)
      ∧ (d.last_pulse_length = false → d.pulse_count ≤ 5)) :
    ((feed d events).last_pulse_length = true → (feed d events).pulse_count ≤ 4)
      ∧ ((feed d events).last_pulse_length = false → (feed d events).pulse_count ≤ 5) := by
  induction events generalizing d with
  | nil => exact h
  | cons e es ih =>
    simp only [feed, List.foldl_cons]
    exact ih _ (process_front_count d e.1 e.2 h)

/-- C20: in every state reached from `reset_state` by `process_front` calls, `pulse_count`
is at most 4 when `last_pulse_length` is long and at most 5 when it is short; so a pulse
of the other class commits a bit only for a long run counted 3 or 4 or a short run
counted 4 or 5. -/
theorem pulse_count_bounded (d0 : DecoderHID37) (events : List (Bool × Nat)) :
    ((feed d0.reset_state events).last_pulse_length = true →
        (feed d0.reset_state events).pulse_count ≤ 4)
      ∧ ((feed d0.reset_state events).last_pulse_length = false →
        (feed d0.reset_state events).pulse_count ≤ 5)
      ∧ ∀ c : Bool, c ≠ (feed d0.reset_state events).last_pulse_length →
          (bit_recovery_ref c (feed d0.reset_state events).last_pulse_length
            (feed d0.reset_state events).pulse_count).1 ≠ none →
          ((feed d0.reset_state events).last_pulse_length = true
              ∧ ((feed d0.reset_state events).pulse_count = 3
                ∨ (feed d0.reset_state events).pulse_count = 4))
            ∨ ((feed d0.reset_state events).last_pulse_length = false
              ∧ ((feed d0.reset_state events).pulse_count = 4
                ∨ (feed d0.reset_state events).pulse_count = 5)) := by
  have hinit : (d0.reset_state.last_pulse_length = true → d0.reset_state.pulse_count ≤ 4)
      ∧ (d0.reset_state.last_pulse_length = false → d0.reset_state.pulse_count ≤ 5) :=
    ⟨fun _ => Nat.zero_le _, fun _ => Nat.zero_le _⟩
  obtain ⟨h1, h2⟩ := feed_count events d0.reset_state hinit
  refine ⟨h1, h2, ?_⟩
  intro c hc hbit
  generalize (feed d0.reset_state events).last_pulse_length = last at h1 h2 hc hbit ⊢
  generalize (feed d0.reset_state events).pulse_count = count at h1 h2 hbit ⊢
  simp only [bit_recovery_ref, hc, if_false] at hbit
  cases last
  · have := h2 rfl
    by_cases h3 : count > 3
    · right; exact ⟨rfl, by omega⟩
    · simp [h3] at hbit
  · have := h1 rfl
    by_cases h3 : count > 2
    · left; exact ⟨rfl, by omega⟩
    · simp [h3] at hbit

/-! ## The stores of `encode` one by one -/

theorem write_all_append (xs ys : List (Bool × Nat)) (cd : CardData) :
    write_all (xs ++ ys) cd = write_all ys (write_all xs cd) := by
  simp only [write_all, List.foldl_append]

theorem write_all_manchester (b : Bool) (p : Nat) (cd : CardData) :
    write_all (manchester_writes b p) cd = write_manchester_bit b p cd := rfl

theorem write_all_data (v n : Nat) (cd : CardData) :
    write_all (((List.range n).map
        (fun i => manchester_writes (((v >>> (34 - i)) &&& 1) != 0) (10 + 46 + (i * 2)))).flatten)
        cd
      = write_data v n cd := by
  induction n with
  | zero => rfl
  | succ n ih =>
    rw [List.range_succ, List.map_append, List.flatten_append, write_all_append, ih,
      write_data_succ]
    rfl

theorem write_all_encode_writes (payload : List Nat) :
    write_all (encode_writes payload) ⟨0, 0, 0, 0⟩ = encode_card_data payload := by
  simp only [encode_writes, write_all_append, write_all_manchester, write_all_data]
  rfl

theorem write_all_checked_of_lt (ws : List (Bool × Nat)) (cd : CardData)
    (h : ∀ w, w ∈ ws → w.2 < 128) : write_all_checked ws cd = some (write_all ws cd) := by
  induction ws generalizing cd with
  | nil => rfl
  | cons w ws ih =>
    have hw : w.2 < 128 := h w (List.mem_cons_self _ _)
    have h1 : w.2 / 32 = 0 ∨ w.2 / 32 = 1 ∨ w.2 / 32 = 2 ∨ w.2 / 32 = 3 := by omega
    have hs : ∃ cd1, write_raw_bit_checked w.1 w.2 cd = some cd1 := by
      rcases h1 with g | g | g | g <;>
        simp only [write_raw_bit_checked, HID10304BitSize, g, CardData.word] <;>
        exact ⟨_, rfl⟩
    obtain ⟨cd1, hcd1⟩ := hs
    have he : write_raw_bit w.1 w.2 cd = cd1 := by
      simp only [write_raw_bit, hcd1, Option.getD_some]
    rw [write_all_checked, hcd1]
    simp only
    rw [ih cd1 (fun w1 hm => h w1 (List.mem_cons_of_mem _ hm))]
    simp only [write_all, List.foldl_cons, he]

theorem write_all_checked_append_outside (xs ys : List (Bool × Nat)) (b : Bool) (p : Nat)
    (cd : CardData) (hp : 128 ≤ p) : write_all_checked (xs ++ (b, p) :: ys) cd = none := by
  induction xs generalizing cd with
  | nil =>
    have hn : cd.word (p / (4 * 8)) = none := CardData.word_none cd _ (by omega)
    simp only [List.nil_append, write_all_checked, write_raw_bit_checked, HID10304BitSize, hn]
  | cons w ws ih =>
    simp only [List.cons_append, write_all_checked]
    cases write_raw_bit_checked w.1 w.2 cd with
    | none => rfl
    | some cd1 => exact ih cd1

theorem encode_writes_positions (payload : List Nat) :
    (encode_writes payload).map Prod.snd = (encode_writes []).map Prod.snd := by
  simp only [encode_writes, manchester_writes, List.map_append, List.map_cons, List.map_nil,
    List.map_flatten, List.map_map, Function.comp_def]

theorem encode_writes_split (payload : List Nat) :
    encode_writes payload
      = (encode_writes payload).take 116
        ++ manchester_writes (odd_parity_sum (fc_cn payload) % 2 != 0) (10 + 118) := by
  have hl : ((encode_writes payload).map Prod.snd).length = 118 := by
    rw [encode_writes_positions]; decide
  rw [List.length_map] at hl
  have h : ∀ (xs ys : List (Bool × Nat)), ys.length = 2 → (xs ++ ys).length = 118 →
      xs ++ ys = (xs ++ ys).take 116 ++ ys := by
    intro xs ys h2 h118
    have hx : xs.length = 116 := by rw [List.length_append] at h118; omega
    rw [List.take_append_of_le_length (by omega), List.take_of_length_le (by omega)]
  exact h _ _ rfl hl

/-- C19: the stores of `encode` are not all inside the frame.  For every payload the list
of `write_raw_bit` calls of `encode` (which on the four frame words gives the encoded
frame) has 118 entries at payload-independent positions; the first 116 are at positions
below 128 and run without any out-of-range access, giving the whole frame already; the
last two, the odd-parity pair, are at positions 128 and 129, word index 4, so with checked
indexing the run of `encode` takes the out-of-range branch. -/
theorem encode_writes_leave_frame (payload : List Nat) :
    write_all (encode_writes payload) ⟨0, 0, 0, 0⟩ = encode_card_data payload
      ∧ ((encode_writes payload).map Prod.snd).length = 118
      ∧ (∀ w, w ∈ (encode_writes payload).take 116 → w.2 < 128)
      ∧ write_all_checked ((encode_writes payload).take 116) ⟨0, 0, 0, 0⟩
          = some (encode_card_data payload)
      ∧ ((encode_writes payload).map Prod.snd).drop 116 = [128, 129]
      ∧ 128 / 32 = 4 ∧ 129 / 32 = 4
      ∧ write_all_checked (encode_writes payload) ⟨0, 0, 0, 0⟩ = none := by
  have hpos := encode_writes_positions payload
  have hsplit := encode_writes_split payload
  have hlt : ∀ w, w ∈ (encode_writes payload).take 116 → w.2 < 128 := by
    intro w hw
    have hm : w.2 ∈ ((encode_writes payload).take 116).map Prod.snd :=
      List.mem_map_of_mem _ hw
    rw [List.map_take, hpos] at hm
    revert hm
    generalize w.2 = p
    revert p
    decide
  have htake : write_all ((encode_writes payload).take 116) ⟨0, 0, 0, 0⟩
      = encode_card_data payload := by
    have h := write_all_encode_writes payload
    rw [hsplit, write_all_append, write_all_manchester,
      write_manchester_bit_outside _ _ _ (by norm_num) (by norm_num)] at h
    exact h
  refine ⟨write_all_encode_writes payload, ?_, hlt, ?_, ?_, rfl, rfl, ?_⟩
  · rw [hpos]; decide
  · rw [write_all_checked_of_lt _ _ hlt, htake]
  · rw [hpos]; decide
  · rw [hsplit]
    exact write_all_checked_append_outside _ _ _ _ _ (by norm_num)

end HID
